import Mathlib

/-!
# NFA to DFA conversion (project1/EGE_GUNGORDU_S021463.cpp)

A shallow embedding of the automaton classes `FA`, `DFA` and `NFA` of the C++ source:
the structural validation `FA::validate_automaton`, the determinism check
`DFA::validate_automaton`, the subset naming `FA::set_to_string` and the subset
construction `NFA::to_dfa`.

Representation of the C++ containers:

* `std::string` is `String`; `operator<` on strings is `strLt`, the lexicographic comparison of
  the character codes (on UTF-8 text this is the order of the bytes);
* `std::set<std::string>` is the list of its elements in iteration order, which is ascending;
  `setInsert` is `std::set::insert`;
* `std::unordered_set<std::string>` is the list of its elements in iteration order; the order is
  unspecified in C++, so every statement below is made for an arbitrary list;
* `std::unordered_map<std::string, V>` is an association list in iteration order; `mapFind` is a
  lookup and `mapUpdate` is `operator[]` followed by a modification of the mapped value;
* `std::queue` is a list, popped at the head and pushed at the tail.

The `while` loop of `NFA::to_dfa` is run for a bounded number of iterations (`loopIter`); that a
bound exists for every model is proved below (`to_dfa_terminates`), and the result does not
depend on the bound (`to_dfa_fuel_unique`).
-/

namespace Project1

/-! ## Strings and containers -/

/-- Lexicographic comparison of two character sequences by character code. -/
def ltChars : List Char → List Char → Bool
  | _, [] => false
  | [], _ :: _ => true
  | a :: as, b :: bs =>
    if a.toNat < b.toNat then true
    else if b.toNat < a.toNat then false
    else ltChars as bs

/-- The comparison `operator<` of `std::string`. -/
def strLt (a b : String) : Bool := ltChars a.data b.data

/-- The method `std::set<std::string>::insert` on the ascending list of elements. -/
def setInsert (x : String) : List String → List String
  | [] => [x]
  | y :: ys =>
    if strLt x y then x :: y :: ys
    else if strLt y x then y :: setInsert x ys
    else y :: ys

/-- The range insertion `s.insert(first, last)` of `std::set`. -/
def setInsertRange (s : List String) (xs : List String) : List String :=
  xs.foldl (fun acc x => setInsert x acc) s

/-- The `std::set<std::string>` built by inserting the elements of `xs` one by one. -/
def setOfList (xs : List String) : List String := setInsertRange [] xs

/-- The method `std::unordered_set<std::string>::insert`: a new element is added to the
iteration sequence, an element already present changes nothing. -/
def usetInsert (x : String) (l : List String) : List String :=
  if x ∈ l then l else l ++ [x]

/-- The lookup `find` of `std::unordered_map<std::string, V>`. -/
def mapFind {β : Type} : List (String × β) → String → Option β
  | [], _ => none
  | (k, v) :: rest, key => if k = key then some v else mapFind rest key

/-- The access `m[key]` followed by the modification `f` of the mapped value: a missing key is
first inserted with the value-initialised `dflt`. -/
def mapUpdate {β : Type} (dflt : β) (f : β → β) : List (String × β) → String → List (String × β)
  | [], key => [(key, f dflt)]
  | (k, v) :: rest, key =>
    if k = key then (k, f v) :: rest else (k, v) :: mapUpdate dflt f rest key

/-- The type of `FA::transitions`:
`unordered_map<string, unordered_map<string, set<string>>>`. -/
abbrev Trans := List (String × List (String × List String))

/-- The value of `transitions[q][a]`: the destination set, empty when a key is missing. -/
def transGet (t : Trans) (q a : String) : List String :=
  match mapFind t q with
  | none => []
  | some inner => (mapFind inner a).getD []

/-- The access `transitions[q][a]` followed by the modification `f` of the destination set. -/
def transUpdate (t : Trans) (q a : String) (f : List String → List String) : Trans :=
  mapUpdate [] (fun inner => mapUpdate [] f inner a) t q

/-! ## The automaton model -/

/-- The data members of class `FA`. -/
structure FA where
  /-- The member `alphabet`. -/
  alphabet : List String
  /-- The member `states`. -/
  states : List String
  /-- The member `start`; the empty string stands for an absent start state. -/
  start : String
  /-- The member `final`. -/
  final : List String
  /-- The member `transitions`. -/
  transitions : Trans
deriving DecidableEq, Repr

/-- The loop of `FA::validate_automaton` over the final states. -/
def checkFinal (states : List String) : List String → Except String Unit
  | [] => Except.ok ()
  | f :: fs =>
    if f ∈ states then checkFinal states fs
    else Except.error ("Final state " ++ f ++ " is not in states")

/-- The innermost loop of `FA::validate_automaton`, over one destination set. -/
def checkTargets (states : List String) : List String → Except String Unit
  | [] => Except.ok ()
  | d :: ds =>
    if d ∈ states then checkTargets states ds
    else Except.error ("Transition target state " ++ d ++ " is not in states")

/-- The loop of `FA::validate_automaton` over the symbol map of one source state. -/
def checkSymbols (alphabet states : List String) :
    List (String × List String) → Except String Unit
  | [] => Except.ok ()
  | (a, ds) :: rest =>
    if a ∈ alphabet then
      match checkTargets states ds with
      | Except.error e => Except.error e
      | Except.ok _ => checkSymbols alphabet states rest
    else Except.error ("Transition symbol " ++ a ++ " is not in alphabet")

/-- The loop of `FA::validate_automaton` over the transition map. -/
def checkTransitions (alphabet states : List String) : Trans → Except String Unit
  | [] => Except.ok ()
  | (q, inner) :: rest =>
    if q ∈ states then
      match checkSymbols alphabet states inner with
      | Except.error e => Except.error e
      | Except.ok _ => checkTransitions alphabet states rest
    else Except.error ("Transition state " ++ q ++ " is not in states")

/-- The method `FA::validate_automaton`; a thrown `std::invalid_argument` is `Except.error`
with the message of the exception. -/
def FA.validate_automaton (m : FA) : Except String Unit :=
  if m.start = "" then Except.error "No start state"
  else if m.start ∉ m.states then
    Except.error ("Start state " ++ m.start ++ " is not in states")
  else
    match checkFinal m.states m.final with
    | Except.error e => Except.error e
    | Except.ok _ => checkTransitions m.alphabet m.states m.transitions

/-- The method `std::string::pop_back`. -/
def pop_back (s : String) : String := ⟨s.data.dropLast⟩

/-- The method `FA::set_to_string`, on the elements of the set in iteration order. -/
def FA.set_to_string (set : List String) : String :=
  match set with
  | [] => ""
  | [x] => x
  | _ => pop_back (set.foldl (fun str item => str ++ (item ++ ",")) "\x7b") ++ "\x7d"

/-- Equality of validation outcomes is decidable. -/
instance instDecidableEqOutcome : DecidableEq (Except String Unit)
  | Except.ok _, Except.ok _ => isTrue rfl
  | Except.error a, Except.error b =>
    if h : a = b then isTrue (by rw [h]) else isFalse (by intro h1; cases h1; exact h rfl)
  | Except.ok _, Except.error _ => isFalse (by intro h; cases h)
  | Except.error _, Except.ok _ => isFalse (by intro h; cases h)

/-- The inner loop of `DFA::validate_automaton` over the alphabet, for one state. Every test
reads `transitions[state][symbol]`, which inserts an empty destination set under a missing key;
the transition map is therefore threaded through the loop. -/
def dfaCheckSymbols (q : String) : List String → Trans → Except String Unit × Trans
  | [], t => (Except.ok (), t)
  | a :: rest, t =>
    let t1 := transUpdate t q a id
    if (transGet t1 q a).length = 0 then
      (Except.error ("State " ++ q ++ " has no transition for symbol " ++ a), t1)
    else if (transGet t1 q a).length > 1 then
      (Except.error ("State " ++ q ++ " has more than one transition for symbol " ++ a), t1)
    else dfaCheckSymbols q rest t1

/-- The outer loop of `DFA::validate_automaton` over the states. -/
def dfaCheckStates (alphabet : List String) : List String → Trans → Except String Unit × Trans
  | [], t => (Except.ok (), t)
  | q :: rest, t =>
    match dfaCheckSymbols q alphabet t with
    | (Except.error e, t1) => (Except.error e, t1)
    | (Except.ok _, t1) => dfaCheckStates alphabet rest t1

/-- The method `DFA::validate_automaton`: the outcome, and the model as the call leaves it. -/
def DFA.validate_automaton (m : FA) : Except String Unit × FA :=
  match FA.validate_automaton m with
  | Except.error e => (Except.error e, m)
  | Except.ok _ =>
    ((dfaCheckStates m.alphabet m.states m.transitions).1,
      { m with transitions := (dfaCheckStates m.alphabet m.states m.transitions).2 })

/-! ## The subset construction -/

/-- The local variables of `NFA::to_dfa` that live across iterations of the `while` loop. -/
structure ConvState where
  /-- The automaton `dfa` under construction. -/
  dfa : FA
  /-- The work queue `operation_queue`. -/
  queue : List (List String)
  /-- The set `visited`, in insertion order. -/
  visited : List (List String)
deriving DecidableEq, Repr

/-- The set `next_states` of `NFA::to_dfa` (lines 227-232): the destinations on `symbol` of all
members of `current_states`, inserted into an empty set. Reading `transitions[state][symbol]`
inserts an empty destination set under a missing key of the NFA; the value read is the one
`transGet` gives, before and after. -/
def nextStates (t : Trans) (current_states : List String) (symbol : String) : List String :=
  current_states.foldl (fun acc state => setInsertRange acc (transGet t state symbol)) []

/-- The `else` branch of `NFA::to_dfa` (lines 244-249): the sink is added to the states, gets a
self-loop on every symbol, and becomes the only destination of `(current_state_str, symbol)`. -/
def sinkBranch (alphabet : List String) (current_state_str symbol : String) (dfa : FA) : FA :=
  { dfa with
    states := usetInsert "SINK" dfa.states
    transitions :=
      transUpdate
        (alphabet.foldl (fun t b => transUpdate t "SINK" b (setInsert "SINK")) dfa.transitions)
        current_state_str symbol (fun _ => ["SINK"]) }

/-- The body of the loop over the alphabet in `NFA::to_dfa` (lines 226-250). -/
def symbolStep (nfa : FA) (current_states : List String) (current_state_str : String)
    (st : ConvState) (symbol : String) : ConvState :=
  if nextStates nfa.transitions current_states symbol ≠ [] then
    if nextStates nfa.transitions current_states symbol ∈ st.visited then
      { st with
        dfa := { st.dfa with
          transitions := transUpdate st.dfa.transitions current_state_str symbol
            (setInsert (FA.set_to_string (nextStates nfa.transitions current_states symbol))) } }
    else
      { dfa := { st.dfa with
          transitions := transUpdate st.dfa.transitions current_state_str symbol
            (setInsert (FA.set_to_string (nextStates nfa.transitions current_states symbol))) }
        queue := st.queue ++ [nextStates nfa.transitions current_states symbol]
        visited := st.visited ++ [nextStates nfa.transitions current_states symbol] }
  else
    { st with dfa := sinkBranch nfa.alphabet current_state_str symbol st.dfa }

/-- The body of the loop over the members of `current_states` in `NFA::to_dfa`
(lines 219-251): the test for a final state, then the whole loop over the alphabet. -/
def stateStep (nfa : FA) (current_states : List String) (current_state_str : String)
    (st : ConvState) (state : String) : ConvState :=
  nfa.alphabet.foldl (symbolStep nfa current_states current_state_str)
    (if state ∈ nfa.final then
      { st with dfa := { st.dfa with final := usetInsert current_state_str st.dfa.final } }
    else st)

/-- The body of the `while` loop of `NFA::to_dfa` after the pop (lines 210-252). -/
def processSubset (nfa : FA) (st : ConvState) (current_states : List String) : ConvState :=
  current_states.foldl (stateStep nfa current_states (FA.set_to_string current_states))
    { st with
      dfa := { st.dfa with
        states := usetInsert (FA.set_to_string current_states) st.dfa.states } }

/-- The state of `NFA::to_dfa` on entry to the `while` loop (lines 196-204). -/
def initState (nfa : FA) : ConvState :=
  { dfa := { alphabet := nfa.alphabet, states := [], start := nfa.start, final := [],
             transitions := [] }
    queue := [[nfa.start]]
    visited := [[nfa.start]] }

/-- The `while` loop of `NFA::to_dfa` (lines 206-253), run for at most `fuel` iterations: each
iteration pops the head of the queue and runs the body on it; the loop stops when the queue is
empty. -/
def loopIter (nfa : FA) : Nat → ConvState → ConvState
  | 0, st => st
  | _ + 1, ⟨dfa, [], visited⟩ => ⟨dfa, [], visited⟩
  | fuel + 1, ⟨dfa, current_states :: queue, visited⟩ =>
    loopIter nfa fuel (processSubset nfa ⟨dfa, queue, visited⟩ current_states)

/-- The number of subsets that the `while` loop pops in its first `fuel` iterations. -/
def popCount (nfa : FA) : Nat → ConvState → Nat
  | 0, _ => 0
  | _ + 1, ⟨_, [], _⟩ => 0
  | fuel + 1, ⟨dfa, current_states :: queue, visited⟩ =>
    popCount nfa fuel (processSubset nfa ⟨dfa, queue, visited⟩ current_states) + 1

/-- The method `NFA::to_dfa`: the automaton `dfa` when the loop has ended, that is when the
queue is empty, within `fuel` iterations; `none` when `fuel` iterations do not empty the
queue. -/
def NFA.to_dfa (fuel : Nat) (nfa : FA) : Option FA :=
  match (loopIter nfa fuel (initState nfa)).queue with
  | [] => some (loopIter nfa fuel (initState nfa)).dfa
  | _ :: _ => none

/-! ## Acceptance -/

/-- Some run of the automaton on the word from state `q` ends in a final state. -/
def FA.acceptsFrom (m : FA) : String → List String → Bool
  | q, [] => decide (q ∈ m.final)
  | q, a :: w => (transGet m.transitions q a).any (fun d => FA.acceptsFrom m d w)

/-- Some run of the NFA on the word from its start state ends in a final state. -/
def NFA.accepts (nfa : FA) (w : List String) : Bool := FA.acceptsFrom nfa nfa.start w

/-- The run of a deterministic automaton from state `q`: each symbol is followed along the
only destination of the current state; there is no run when the destination set of a state
met on the way is not a singleton. -/
def DFA.run (dfa : FA) : String → List String → Option String
  | q, [] => some q
  | q, a :: w =>
    match transGet dfa.transitions q a with
    | [d] => DFA.run dfa d w
    | _ => none

/-- Running the DFA on the word from its start state ends in a final state. -/
def DFA.accepts (dfa : FA) (w : List String) : Bool :=
  match DFA.run dfa dfa.start w with
  | some q => decide (q ∈ dfa.final)
  | none => false

/-- The state subsets that `NFA::to_dfa` can reach from the start subset: a successor is the
non-empty `next_states` of a reached subset on a symbol of the alphabet. -/
inductive Reach (nfa : FA) : List String → Prop
  | start : Reach nfa [nfa.start]
  | step (C : List String) (a : String) : Reach nfa C → a ∈ nfa.alphabet →
      nextStates nfa.transitions C a ≠ [] → Reach nfa (nextStates nfa.transitions C a)

/-! ## Predicates of the specification -/

/-- The list is strictly ascending for `operator<`: the shape of a `std::set<std::string>`. -/
def Ascending (l : List String) : Prop := l.Pairwise (fun a b => strLt a b = true)

instance instDecidableAscending (l : List String) : Decidable (Ascending l) := by
  unfold Ascending; infer_instance

/-- Invariants 1-3 of the data model: the start state is set and declared, every final state is
declared, and every source state, symbol and destination state of the transition map is
declared. -/
def FA.Valid (m : FA) : Prop :=
  m.start ≠ "" ∧ m.start ∈ m.states ∧ (∀ f ∈ m.final, f ∈ m.states) ∧
    ∀ p ∈ m.transitions, p.1 ∈ m.states ∧
      ∀ e ∈ p.2, e.1 ∈ m.alphabet ∧ ∀ d ∈ e.2, d ∈ m.states

instance instDecidableValid (m : FA) : Decidable m.Valid := by
  unfold FA.Valid; infer_instance

/-- An error message of the transition-membership check: all three begin with `Transition `. -/
def TransitionError (e : String) : Prop := ∃ rest : String, e = "Transition " ++ rest

/-! ## Sample automata -/

/-- The NFA of the round-trip scenario: `q0 a q0`, `q0 a q1`, `q1 b q1`, start `q0`,
final `q1`. -/
def sampleNFA : FA :=
  { alphabet := ["a", "b"], states := ["q0", "q1"], start := "q0", final := ["q1"],
    transitions := [("q0", [("a", ["q0", "q1"])]), ("q1", [("b", ["q1"])])] }

/-- A model whose start state is not declared and whose transition map is invalid too. -/
def badStartFA : FA :=
  { alphabet := ["a"], states := ["q0"], start := "p", final := ["f"],
    transitions := [("x", [("y", ["z"])])] }

/-- A valid model over `a` and `b` in which only `(q1, a)` has no destination. -/
def missingFA : FA :=
  { alphabet := ["a", "b"], states := ["q0", "q1"], start := "q0", final := ["q1"],
    transitions := [("q0", [("a", ["q1"]), ("b", ["q0"])]), ("q1", [("b", ["q1"])])] }

/-- The canonical name is injective on the subsets that the conversion reaches. -/
def NameInjective (nfa : FA) : Prop :=
  ∀ C D, Reach nfa C → Reach nfa D → FA.set_to_string C = FA.set_to_string D → C = D

/-- No subset that the conversion reaches has the canonical name `SINK`. -/
def NoSinkName (nfa : FA) : Prop :=
  ∀ C, Reach nfa C → FA.set_to_string C ≠ "SINK"

/-- The destinations stored in one symbol map. -/
def innerDests : List (String × List String) → List String
  | [] => []
  | (_, ds) :: rest => ds ++ innerDests rest

/-- All destinations stored in a transition map. -/
def allDests : Trans → List String
  | [] => []
  | (_, inner) :: rest => innerDests inner ++ allDests rest

/-- What an execution of the loop body never undoes: members of the state, final and visited
sets stay, a non-empty destination set stays non-empty, queued subsets stay queued, and a newly
visited subset is queued. -/
structure Grows (st st' : ConvState) : Prop where
  /-- Registered states stay. -/
  states : ∀ x ∈ st.dfa.states, x ∈ st'.dfa.states
  /-- Final states stay. -/
  final : ∀ x ∈ st.dfa.final, x ∈ st'.dfa.final
  /-- A non-empty destination set stays non-empty. -/
  cells : ∀ q a, transGet st.dfa.transitions q a ≠ [] → transGet st'.dfa.transitions q a ≠ []
  /-- Visited subsets stay visited. -/
  visited : ∀ D ∈ st.visited, D ∈ st'.visited
  /-- Queued subsets stay queued. -/
  queue : ∀ D ∈ st.queue, D ∈ st'.queue
  /-- A newly visited subset is in the queue. -/
  fresh : ∀ D ∈ st'.visited, D ∈ st.visited ∨ D ∈ st'.queue
  /-- The alphabet is unchanged. -/
  alphabet : st'.dfa.alphabet = st.dfa.alphabet
  /-- The start state is unchanged. -/
  start : st'.dfa.start = st.dfa.start

/-- The pair `(C, a)` has been handled: its destination set is non-empty, a non-empty successor
subset is visited, and for an empty successor the sink is registered with a destination on every
symbol. -/
def CellDone (nfa : FA) (C : List String) (a : String) (st : ConvState) : Prop :=
  transGet st.dfa.transitions (FA.set_to_string C) a ≠ [] ∧
  (nextStates nfa.transitions C a ≠ [] → nextStates nfa.transitions C a ∈ st.visited) ∧
  (nextStates nfa.transitions C a = [] →
    "SINK" ∈ st.dfa.states ∧ ∀ b ∈ nfa.alphabet, transGet st.dfa.transitions "SINK" b ≠ [])

/-- The subset `C` has been processed by the loop body. -/
def Complete (nfa : FA) (st : ConvState) (C : List String) : Prop :=
  FA.set_to_string C ∈ st.dfa.states ∧
  ((∃ s ∈ C, s ∈ nfa.final) → FA.set_to_string C ∈ st.dfa.final) ∧
  ∀ a ∈ nfa.alphabet, CellDone nfa C a st

/-- The bookkeeping of the work queue: the visited sequence is the popped subsets followed by
the queue, it has no repetition, and every visited subset is reachable. -/
def Basic (nfa : FA) (popped : List (List String)) (st : ConvState) : Prop :=
  st.visited = popped ++ st.queue ∧ st.visited.Nodup ∧ ∀ D ∈ st.visited, Reach nfa D

/-- The list `U` contains the start state and every destination of the transition map. -/
def Closed (nfa : FA) (U : List String) : Prop :=
  nfa.start ∈ U ∧ ∀ q a, ∀ d ∈ transGet nfa.transitions q a, d ∈ U

/-- The destination name that the conversion gives to the pair `(C, a)`: the name of the
successor subset, or `SINK` when the successor is empty. -/
def target (nfa : FA) (C : List String) (a : String) : String :=
  if nextStates nfa.transitions C a = [] then "SINK"
  else FA.set_to_string (nextStates nfa.transitions C a)

/-- The shape of the automaton under construction: the destination sets of `SINK` hold nothing
but `SINK`; a registered sink has a destination on every symbol; a non-empty destination set
belongs to a symbol of the alphabet and to `SINK` or the name of a reachable subset; a final
state is the name of a reachable subset that holds an NFA final state; a registered state is
`SINK` or the name of a visited subset; alphabet and start state are those of the NFA. -/
def Shape (nfa : FA) (st : ConvState) : Prop :=
  (∀ a, transGet st.dfa.transitions "SINK" a = [] ∨
    transGet st.dfa.transitions "SINK" a = ["SINK"]) ∧
  ("SINK" ∈ st.dfa.states → ∀ b ∈ nfa.alphabet, transGet st.dfa.transitions "SINK" b ≠ []) ∧
  (∀ q a, transGet st.dfa.transitions q a ≠ [] →
    a ∈ nfa.alphabet ∧ (q = "SINK" ∨ ∃ D, Reach nfa D ∧ FA.set_to_string D = q)) ∧
  (∀ x ∈ st.dfa.final, ∃ D, Reach nfa D ∧ FA.set_to_string D = x ∧ ∃ s ∈ D, s ∈ nfa.final) ∧
  (∀ x ∈ st.dfa.states, x = "SINK" ∨ ∃ D ∈ st.visited, FA.set_to_string D = x) ∧
  st.dfa.alphabet = nfa.alphabet ∧ st.dfa.start = nfa.start

/-- The destination set of a reachable subset on a symbol of the alphabet is empty or holds
exactly the target name. -/
def Det (nfa : FA) (st : ConvState) : Prop :=
  ∀ D, Reach nfa D → ∀ a ∈ nfa.alphabet,
    transGet st.dfa.transitions (FA.set_to_string D) a = [] ∨
    transGet st.dfa.transitions (FA.set_to_string D) a = [target nfa D a]

/-- The invariant of the `while` loop. -/
def LoopInv (nfa : FA) (st : ConvState) : Prop :=
  Shape nfa st ∧ (∃ popped, Basic nfa popped st) ∧ [nfa.start] ∈ st.visited ∧
    ∀ D ∈ st.visited, D ∉ st.queue → Complete nfa st D

/-- The subset of NFA states in which the runs from the members of `C` on the word end. -/
def subsetRun (nfa : FA) (C : List String) : List String → List String
  | [] => C
  | a :: w => subsetRun nfa (nextStates nfa.transitions C a) w

/-- The run of the deterministic automaton from `q` on the word ends in a final state. -/
def RunAccepts (dfa : FA) (q : String) (w : List String) : Prop :=
  ∃ q', DFA.run dfa q w = some q' ∧ q' ∈ dfa.final

/-- An NFA with the state names `a,b`, `c`, `a` and `b,c`: the distinct subsets reached on `0`
and on `1` are both named `{a,b,c}`. -/
def commaNFA : FA :=
  { alphabet := ["0", "1"], states := ["s", "a,b", "c", "a", "b,c"], start := "s",
    final := ["c"],
    transitions := [("s", [("0", ["a,b", "c"]), ("1", ["a", "b,c"])])] }

/-- An NFA with a final state named `SINK` that has no outgoing transition. -/
def sinkFinalNFA : FA :=
  { alphabet := ["0"], states := ["s", "SINK"], start := "s", final := ["SINK"],
    transitions := [("s", [("0", ["SINK"])])] }

/-- An NFA with a state named `SINK` that has a transition to the dead-end state `t`. -/
def sinkStepNFA : FA :=
  { alphabet := ["0"], states := ["s", "SINK", "t"], start := "s", final := [],
    transitions := [("s", [("0", ["SINK"])]), ("SINK", [("0", ["t"])])] }

/-- The subsets that the conversion of the sample NFA reaches. -/
def sampleReach : List (List String) := [["q0"], ["q0", "q1"], ["q1"]]

/-- A state name that holds no comma. -/
def CleanName (s : String) : Prop := ',' ∉ s.data

instance instDecidableCleanName (s : String) : Decidable (CleanName s) := by
  unfold CleanName; infer_instance

/-- The progress of the `while` loop: the bookkeeping of the queue holds, the start subset is
visited, and every visited subset that is no longer queued has been processed. -/
def Progress (nfa : FA) (st : ConvState) : Prop :=
  (∃ popped, Basic nfa popped st) ∧ [nfa.start] ∈ st.visited ∧
    ∀ D ∈ st.visited, D ∉ st.queue → Complete nfa st D

/-- Some reachable subset has an empty successor on some symbol of the alphabet: the conversion
needs the sink. -/
def SinkNeeded (nfa : FA) : Prop :=
  ∃ D, Reach nfa D ∧ ∃ a ∈ nfa.alphabet, nextStates nfa.transitions D a = []

/-- Every entry of the transition map under construction has a registered source state, a
symbol of the alphabet, and destinations that are registered or are names of visited
subsets. -/
def TransOk (alphabet : List String) (st : ConvState) : Prop :=
  ∀ p ∈ st.dfa.transitions, p.1 ∈ st.dfa.states ∧
    ∀ e ∈ p.2, e.1 ∈ alphabet ∧
      ∀ d ∈ e.2, d ∈ st.dfa.states ∨ ∃ D ∈ st.visited, FA.set_to_string D = d

/-- What holds of the automaton under construction for every model, whatever its state names:
a final state is the name of a reachable subset that holds an NFA final state; a registered
state is the name of a visited subset, or `SINK` when the sink is needed; no state is
registered twice; final states are registered; the entries of the transition map are well
formed; alphabet and start state are those of the NFA. -/
def Gen (nfa : FA) (st : ConvState) : Prop :=
  (∀ x ∈ st.dfa.final, ∃ D, Reach nfa D ∧ FA.set_to_string D = x ∧ ∃ s ∈ D, s ∈ nfa.final) ∧
  (∀ x ∈ st.dfa.states,
    (∃ D ∈ st.visited, FA.set_to_string D = x) ∨ (x = "SINK" ∧ SinkNeeded nfa)) ∧
  st.dfa.states.Nodup ∧
  (∀ x ∈ st.dfa.final, x ∈ st.dfa.states) ∧
  TransOk nfa.alphabet st ∧
  st.dfa.alphabet = nfa.alphabet ∧ st.dfa.start = nfa.start

/-! ## Serialization -/

/-- The call `std::sort(v.begin(), v.end())` on a vector of strings: the elements in ascending
order of `operator<`. Equal strings cannot be told apart, so every sorting algorithm gives this
list. -/
def sortStrings (l : List String) : List String :=
  l.insertionSort (fun a b => strLt b a = false)

/-- The innermost loop of `FA::print` (lines 93-95): one line for each destination. -/
def printDests (state symbol : String) : List String → List String
  | [] => []
  | next_state :: rest =>
    (state ++ " " ++ symbol ++ " " ++ next_state) :: printDests state symbol rest

/-- The loop of `FA::print` over the sorted alphabet, for one state (lines 92-96). -/
def printSymbols (t : Trans) (state : String) : List String → List String
  | [] => []
  | symbol :: rest =>
    printDests state symbol (transGet t state symbol) ++ printSymbols t state rest

/-- The loop of `FA::print` over the sorted states (lines 91-97). -/
def printStates (t : Trans) (alphabet_vec : List String) : List String → List String
  | [] => []
  | state :: rest => printSymbols t state alphabet_vec ++ printStates t alphabet_vec rest

/-- The method `FA::print`: the lines written to the standard output. Reading
`transitions[state][symbol]` inserts an empty destination set under a missing key; the value
read is the one `transGet` gives. -/
def FA.print (m : FA) : List String :=
  ["ALPHABET"] ++ sortStrings m.alphabet ++
  ["STATES"] ++ sortStrings m.states ++
  ["START"] ++ (if m.start ≠ "" then [m.start] else []) ++
  ["FINAL"] ++ sortStrings m.final ++
  ["TRANSITIONS"] ++ printStates m.transitions (sortStrings m.alphabet) (sortStrings m.states) ++
  ["END"]

/-- The DFA of the round-trip scenario, as `NFA::to_dfa` builds it from the sample NFA. -/
def sampleDFA : FA :=
  { alphabet := ["a", "b"],
    states := ["q0", "SINK", "\x7bq0,q1\x7d", "q1"],
    start := "q0",
    final := ["\x7bq0,q1\x7d", "q1"],
    transitions :=
      [("q0", [("a", ["\x7bq0,q1\x7d"]), ("b", ["SINK"])]),
       ("SINK", [("a", ["SINK"]), ("b", ["SINK"])]),
       ("\x7bq0,q1\x7d", [("a", ["\x7bq0,q1\x7d"]), ("b", ["q1"])]),
       ("q1", [("a", ["SINK"]), ("b", ["q1"])])] }

/-- The sample NFA with its sets filled in another order. -/
def sampleNFAReordered : FA :=
  { alphabet := ["b", "a"], states := ["q1", "q0"], start := "q0", final := ["q1"],
    transitions := [("q1", [("b", ["q1"])]), ("q0", [("a", ["q0", "q1"])])] }

/-! ## Parsing -/

/-- The ways in which `FA::read` does not return: an exception is thrown with a message, or
the C++ code has undefined behaviour (an access outside a container). -/
inductive ReadFailure where
  /-- An exception with the message `msg` is thrown. -/
  | thrown (msg : String)
  /-- The behaviour of the code is undefined. -/
  | undefinedBehaviour
deriving DecidableEq, Repr

/-- The function `isspace` in the default locale: space and the characters 9 to 13. -/
def isspace (c : Char) : Bool := c.toNat = 32 || (9 ≤ c.toNat && c.toNat ≤ 13)

/-- The tokens that `std::istream_iterator<std::string>` reads from a line: the maximal runs
of characters that are not whitespace; `cur` is the token being read. -/
def splitTokens : List Char → List Char → List String
  | [], cur => if cur = [] then [] else [String.mk cur]
  | c :: cs, cur =>
    if isspace c then
      if cur = [] then splitTokens cs [] else String.mk cur :: splitTokens cs []
    else splitTokens cs (cur ++ [c])

/-- The line after `line.erase(std::remove_if(line.end()-1, line.end(), ::isspace), line.end())`
(line 31): the last character is removed when it is whitespace. The line is not empty here. -/
def trimLast (line : String) : String :=
  match line.data.getLast? with
  | some c => if isspace c then String.mk line.data.dropLast else line
  | none => line

/-- The loop of `FA::read` over the lines of the file (lines 29-63); `type` is the current
section. An empty line makes `line.end()-1` point before the string, and a transition line
with fewer than three tokens makes `tokens[2]` (or already `tokens[0]`, `tokens[1]`) an access
past the end of the vector: the behaviour is undefined in both cases, no exception is
thrown. (A compiled program may happen to go on with an empty line and store the empty string;
the language gives no guarantee for it.) -/
def readLoop : List String → String → FA → Except ReadFailure FA
  | [], _, m => Except.ok m
  | raw :: rest, type, m =>
    if raw = "" then Except.error ReadFailure.undefinedBehaviour
    else if trimLast raw = "ALPHABET" then readLoop rest "ALPHABET" m
    else if trimLast raw = "STATES" then readLoop rest "STATES" m
    else if trimLast raw = "START" then readLoop rest "START" m
    else if trimLast raw = "FINAL" then readLoop rest "FINAL" m
    else if trimLast raw = "TRANSITIONS" then readLoop rest "TRANSITIONS" m
    else if trimLast raw = "END" then Except.ok m
    else if type = "ALPHABET" then
      readLoop rest type { m with alphabet := usetInsert (trimLast raw) m.alphabet }
    else if type = "STATES" then
      readLoop rest type { m with states := usetInsert (trimLast raw) m.states }
    else if type = "START" then
      readLoop rest type { m with start := trimLast raw }
    else if type = "FINAL" then
      readLoop rest type { m with final := usetInsert (trimLast raw) m.final }
    else if type = "TRANSITIONS" then
      match splitTokens (trimLast raw).data [] with
      | state :: symbol :: next_state :: _ =>
        readLoop rest type
          { m with transitions := transUpdate m.transitions state symbol (setInsert next_state) }
      | _ => Except.error ReadFailure.undefinedBehaviour
    else readLoop rest type m

/-- The method `FA::read` on an `NFA` object whose members are `m`: `file` is `none` when the
file cannot be opened and the lines that `std::getline` yields otherwise; after the loop the
populated model is validated by `FA::validate_automaton`. -/
def FA.read (m : FA) (file : Option (List String)) : Except ReadFailure FA :=
  match file with
  | none => Except.error (ReadFailure.thrown "File not found")
  | some lines =>
    match readLoop lines "" m with
    | Except.error e => Except.error e
    | Except.ok m' =>
      match FA.validate_automaton m' with
      | Except.error msg => Except.error (ReadFailure.thrown msg)
      | Except.ok _ => Except.ok m'

/-- A freshly constructed automaton object: all sets are empty and no start state is set. -/
def emptyFA : FA :=
  { alphabet := [], states := [], start := "", final := [], transitions := [] }

/-- The text of the sample NFA, line by line. -/
def sampleText : List String :=
  ["ALPHABET", "a", "b", "STATES", "q0", "q1", "START", "q0", "FINAL", "q1",
   "TRANSITIONS", "q0 a q0", "q0 a q1", "q1 b q1", "END"]

/-- An input whose `TRANSITIONS` section holds the line `q0 a`, which has two tokens. -/
def shortLineText : List String :=
  ["ALPHABET", "a", "STATES", "q0", "START", "q0", "FINAL", "TRANSITIONS", "q0 a", "END"]

/-- The states of a model that a run from its start state reaches over symbols of the
alphabet. -/
inductive StateReach (m : FA) : String → Prop
  | start : StateReach m m.start
  | step (q a d : String) : StateReach m q → a ∈ m.alphabet →
      d ∈ transGet m.transitions q a → StateReach m d

/-- A model that satisfies the DFA invariants 1-4 and has the state `q1` out of reach of the
start state `q0`. -/
def unreachDFA : FA :=
  { alphabet := ["a"], states := ["q0", "q1"], start := "q0", final := ["q1"],
    transitions := [("q0", [("a", ["q0"])]), ("q1", [("a", ["q1"])])] }

/-- A model that satisfies the DFA invariants 1-4 and all of whose states are reached from the
start state. -/
def totalDFA : FA :=
  { alphabet := ["a", "b"], states := ["q0", "q1"], start := "q0", final := ["q1"],
    transitions := [("q0", [("a", ["q1"]), ("b", ["q0"])]),
      ("q1", [("a", ["q1"]), ("b", ["q0"])])] }

/-- An NFA with a state whose name begins with an opening brace and holds no comma. -/
def braceNFA : FA :=
  { alphabet := ["a"], states := ["\x7bx\x7d", "y"], start := "\x7bx\x7d", final := ["y"],
    transitions := [("\x7bx\x7d", [("a", ["\x7bx\x7d", "y"])])] }

/-! # Properties -/

/-! ## The order on strings and the ascending lists -/

theorem char_eq_of_toNat_eq {a b : Char} (h : a.toNat = b.toNat) : a = b := by
  rw [← Char.ofNat_toNat a, ← Char.ofNat_toNat b, h]

theorem ltChars_irrefl (l : List Char) : ltChars l l = false := by
  induction l with
  | nil => rfl
  | cons a l ih => simp [ltChars, ih]

theorem ltChars_trans : ∀ (a b c : List Char),
    ltChars a b = true → ltChars b c = true → ltChars a c = true
  | _, [], _, h, _ => by simp [ltChars] at h
  | _, _ :: _, [], _, h => by simp [ltChars] at h
  | [], _ :: _, _ :: _, _, _ => by simp [ltChars]
  | x :: a, y :: b, z :: c, h1, h2 => by
    simp only [ltChars] at h1 h2 ⊢
    split_ifs at h1 h2 ⊢ <;> first
      | rfl
      | omega
      | exact ltChars_trans a b c h1 h2

theorem ltChars_total : ∀ (a b : List Char),
    ltChars a b = false → ltChars b a = false → a = b
  | [], [], _, _ => rfl
  | [], _ :: _, h, _ => by simp [ltChars] at h
  | _ :: _, [], _, h => by simp [ltChars] at h
  | x :: a, y :: b, h1, h2 => by
    simp only [ltChars] at h1 h2
    split_ifs at h1 h2 with h3 h4
    · have hxy : x = y := char_eq_of_toNat_eq (by omega)
      rw [hxy, ltChars_total a b h1 h2]

theorem strLt_irrefl (a : String) : strLt a a = false := ltChars_irrefl a.data

theorem strLt_trans {a b c : String} (h1 : strLt a b = true) (h2 : strLt b c = true) :
    strLt a c = true := ltChars_trans _ _ _ h1 h2

theorem strLt_total {a b : String} (h1 : strLt a b = false) (h2 : strLt b a = false) :
    a = b := String.ext (ltChars_total _ _ h1 h2)

theorem strLt_asymm {a b : String} (h1 : strLt a b = true) : strLt b a = false := by
  cases h : strLt b a with
  | false => rfl
  | true => have := strLt_trans h1 h; rw [strLt_irrefl] at this; cases this

theorem mem_setInsert {x z : String} {l : List String} :
    z ∈ setInsert x l ↔ z = x ∨ z ∈ l := by
  induction l with
  | nil => simp [setInsert]
  | cons y ys ih =>
    simp only [setInsert]
    split_ifs with h1 h2
    · simp
    · simp only [List.mem_cons, ih]; tauto
    · have hxy : x = y := strLt_total (by simpa using h1) (by simpa using h2)
      subst hxy; simp

theorem ascending_setInsert {x : String} {l : List String} (h : Ascending l) :
    Ascending (setInsert x l) := by
  induction l with
  | nil => simp [setInsert, Ascending]
  | cons y ys ih =>
    unfold Ascending at h ih ⊢
    rw [List.pairwise_cons] at h
    simp only [setInsert]
    split_ifs with h1 h2
    · rw [List.pairwise_cons]
      refine ⟨?_, List.pairwise_cons.mpr h⟩
      intro z hz
      rcases List.mem_cons.mp hz with rfl | hz
      · exact h1
      · exact strLt_trans h1 (h.1 z hz)
    · rw [List.pairwise_cons]
      refine ⟨?_, ih h.2⟩
      intro z hz
      rcases mem_setInsert.mp hz with rfl | hz
      · exact h2
      · exact h.1 z hz
    · exact List.pairwise_cons.mpr h

theorem setInsert_ne_nil (x : String) (l : List String) : setInsert x l ≠ [] := by
  cases l with
  | nil => simp [setInsert]
  | cons y ys => simp only [setInsert]; split_ifs <;> simp

theorem mem_setInsertRange {z : String} {xs s : List String} :
    z ∈ setInsertRange s xs ↔ z ∈ s ∨ z ∈ xs := by
  induction xs generalizing s with
  | nil => simp [setInsertRange]
  | cons x xs ih =>
    have : setInsertRange s (x :: xs) = setInsertRange (setInsert x s) xs := rfl
    rw [this, ih, mem_setInsert]; simp only [List.mem_cons]; tauto

theorem ascending_setInsertRange {xs s : List String} (h : Ascending s) :
    Ascending (setInsertRange s xs) := by
  induction xs generalizing s with
  | nil => exact h
  | cons x xs ih => exact ih (ascending_setInsert h)

theorem ascending_nil : Ascending [] := List.Pairwise.nil

theorem ascending_singleton (x : String) : Ascending [x] := List.pairwise_singleton _ _

/-- Two ascending lists with the same members are equal: a `std::set` is determined by its
members. -/
theorem ascending_ext : ∀ {l₁ l₂ : List String}, Ascending l₁ → Ascending l₂ →
    (∀ z, z ∈ l₁ ↔ z ∈ l₂) → l₁ = l₂
  | [], [], _, _, _ => rfl
  | [], y :: _, _, _, h => by have := (h y).mpr (List.mem_cons_self _ _); simp at this
  | x :: _, [], _, _, h => by have := (h x).mp (List.mem_cons_self _ _); simp at this
  | x :: xs, y :: ys, h1, h2, h => by
    unfold Ascending at h1 h2
    rw [List.pairwise_cons] at h1 h2
    have hxy : x = y := by
      have hx := (h x).mp (List.mem_cons_self _ _)
      have hy := (h y).mpr (List.mem_cons_self _ _)
      rcases List.mem_cons.mp hx with e | hx
      · exact e
      rcases List.mem_cons.mp hy with e | hy
      · exact e.symm
      have a1 := h2.1 x hx
      have a2 := h1.1 y hy
      rw [strLt_asymm a1] at a2; cases a2
    subst hxy
    have htl : xs = ys := by
      apply ascending_ext h1.2 h2.2
      intro z
      constructor
      · intro hz
        rcases List.mem_cons.mp ((h z).mp (List.mem_cons_of_mem _ hz)) with e | h'
        · subst e; have := h1.1 z hz; rw [strLt_irrefl] at this; cases this
        · exact h'
      · intro hz
        rcases List.mem_cons.mp ((h z).mpr (List.mem_cons_of_mem _ hz)) with e | h'
        · subst e; have := h2.1 z hz; rw [strLt_irrefl] at this; cases this
        · exact h'
    rw [htl]

theorem mem_nextStates {t : Trans} {C : List String} {a z : String} :
    z ∈ nextStates t C a ↔ ∃ s ∈ C, z ∈ transGet t s a := by
  unfold nextStates
  suffices h : ∀ (acc : List String),
      z ∈ C.foldl (fun acc state => setInsertRange acc (transGet t state a)) acc ↔
        z ∈ acc ∨ ∃ s ∈ C, z ∈ transGet t s a by
    simpa using h []
  induction C with
  | nil => intro acc; simp
  | cons s C ih =>
    intro acc
    rw [List.foldl_cons, ih, mem_setInsertRange]
    simp only [List.mem_cons, exists_eq_or_imp]
    tauto

theorem ascending_nextStates (t : Trans) (C : List String) (a : String) :
    Ascending (nextStates t C a) := by
  unfold nextStates
  suffices h : ∀ (acc : List String), Ascending acc →
      Ascending (C.foldl (fun acc state => setInsertRange acc (transGet t state a)) acc) from
    h [] ascending_nil
  induction C with
  | nil => intro acc h; exact h
  | cons s C ih => intro acc h; exact ih _ (ascending_setInsertRange h)

/-! ## Reading and updating the transition map -/

theorem mapFind_mapUpdate {β : Type} (dflt : β) (f : β → β) (m : List (String × β))
    (k k' : String) :
    mapFind (mapUpdate dflt f m k) k' =
      if k = k' then some (f ((mapFind m k).getD dflt)) else mapFind m k' := by
  induction m with
  | nil => simp [mapUpdate, mapFind]
  | cons p m ih =>
    obtain ⟨k0, v⟩ := p
    simp only [mapUpdate, mapFind]
    by_cases h0 : k0 = k
    · subst h0
      by_cases h1 : k0 = k' <;> simp [mapFind, h1]
    · rw [if_neg h0]
      by_cases h1 : k0 = k'
      · have h2 : k ≠ k' := fun e => h0 (h1.trans e.symm)
        simp [mapFind, h1, h2]
      · simp [mapFind, h0, h1, ih]

theorem transGet_transUpdate (t : Trans) (q a q' a' : String) (f : List String → List String) :
    transGet (transUpdate t q a f) q' a' =
      if q = q' ∧ a = a' then f (transGet t q a) else transGet t q' a' := by
  unfold transGet transUpdate
  rw [mapFind_mapUpdate]
  by_cases hq : q = q'
  · subst hq
    simp only [if_true, true_and, mapFind_mapUpdate]
    cases hfind : mapFind t q with
    | none => by_cases ha : a = a' <;> simp [ha, mapFind]
    | some inner => by_cases ha : a = a' <;> simp [ha]
  · simp [hq]

theorem transGet_nil (q a : String) : transGet [] q a = [] := rfl

theorem transGet_touch (t : Trans) (q a q' a' : String) :
    transGet (transUpdate t q a id) q' a' = transGet t q' a' := by
  rw [transGet_transUpdate]
  split_ifs with h
  · rw [h.1, h.2]; rfl
  · rfl

/-- A destination that `transitions[q][a]` holds is stored under the keys `q` and `a`. -/
theorem transGet_mem_entries {t : Trans} {q a d : String} (h : d ∈ transGet t q a) :
    ∃ p ∈ t, p.1 = q ∧ ∃ e ∈ p.2, e.1 = a ∧ d ∈ e.2 := by
  have hfind : ∀ {β : Type} (m : List (String × β)) (k : String) (v : β),
      mapFind m k = some v → (k, v) ∈ m := by
    intro β m k v
    induction m with
    | nil => simp [mapFind]
    | cons p m ih =>
      obtain ⟨k0, v0⟩ := p
      simp only [mapFind]
      split_ifs with h0
      · intro e; cases e; subst h0; exact List.mem_cons_self _ _
      · intro e; exact List.mem_cons_of_mem _ (ih e)
  cases h1 : mapFind t q with
  | none => simp [transGet, h1] at h
  | some inner =>
    cases h2 : mapFind inner a with
    | none => simp [transGet, h1, h2] at h
    | some ds =>
      simp only [transGet, h1, h2, Option.getD_some] at h
      exact ⟨(q, inner), hfind _ _ _ h1, rfl, (a, ds), hfind _ _ _ h2, rfl, h⟩

/-! ## Structural validation -/

theorem checkFinal_ok (states : List String) (fin : List String) :
    checkFinal states fin = Except.ok () ↔ ∀ f ∈ fin, f ∈ states := by
  induction fin with
  | nil => simp [checkFinal]
  | cons f fs ih =>
    simp only [checkFinal]
    split_ifs with h
    · simp [ih, h]
    · simp [h]

theorem checkFinal_error (states : List String) (fin : List String) (e : String)
    (h : checkFinal states fin = Except.error e) :
    ∃ f ∈ fin, f ∉ states ∧ e = "Final state " ++ f ++ " is not in states" := by
  induction fin with
  | nil => simp [checkFinal] at h
  | cons f fs ih =>
    simp only [checkFinal] at h
    split_ifs at h with h1
    · obtain ⟨g, hg, hg'⟩ := ih h
      exact ⟨g, List.mem_cons_of_mem _ hg, hg'⟩
    · cases h
      exact ⟨f, List.mem_cons_self _ _, h1, rfl⟩

theorem checkTargets_ok (states : List String) (ds : List String) :
    checkTargets states ds = Except.ok () ↔ ∀ d ∈ ds, d ∈ states := by
  induction ds with
  | nil => simp [checkTargets]
  | cons d ds ih =>
    simp only [checkTargets]
    split_ifs with h
    · simp [ih, h]
    · simp [h]

theorem checkTargets_error (states : List String) (ds : List String) (e : String)
    (h : checkTargets states ds = Except.error e) : TransitionError e := by
  induction ds with
  | nil => simp [checkTargets] at h
  | cons d ds ih =>
    simp only [checkTargets] at h
    split_ifs at h with h1
    · exact ih h
    · cases h
      exact ⟨"target state " ++ d ++ " is not in states", by
        simp only [← String.append_assoc]; rfl⟩

theorem checkSymbols_ok (alphabet states : List String) (inner : List (String × List String)) :
    checkSymbols alphabet states inner = Except.ok () ↔
      ∀ e ∈ inner, e.1 ∈ alphabet ∧ ∀ d ∈ e.2, d ∈ states := by
  induction inner with
  | nil => simp [checkSymbols]
  | cons p inner ih =>
    obtain ⟨a, ds⟩ := p
    simp only [checkSymbols]
    split_ifs with h
    · cases hc : checkTargets states ds with
      | error e =>
        have : ¬ ∀ d ∈ ds, d ∈ states := by
          rw [← checkTargets_ok, hc]; simp
        simp [this]
      | ok u =>
        have : ∀ d ∈ ds, d ∈ states := by
          rw [← checkTargets_ok, hc]
        simp only [ih, List.mem_cons, forall_eq_or_imp]
        exact ⟨fun h' => ⟨⟨h, this⟩, h'⟩, fun h' => h'.2⟩
    · simp [h]

theorem checkSymbols_error (alphabet states : List String)
    (inner : List (String × List String)) (e : String)
    (h : checkSymbols alphabet states inner = Except.error e) : TransitionError e := by
  induction inner with
  | nil => simp [checkSymbols] at h
  | cons p inner ih =>
    obtain ⟨a, ds⟩ := p
    simp only [checkSymbols] at h
    split_ifs at h with h1
    · cases hc : checkTargets states ds with
      | error e' =>
        rw [hc] at h; cases h
        exact checkTargets_error _ _ _ hc
      | ok u => rw [hc] at h; exact ih h
    · cases h
      exact ⟨"symbol " ++ a ++ " is not in alphabet", by
        simp only [← String.append_assoc]; rfl⟩

theorem checkTransitions_ok (alphabet states : List String) (t : Trans) :
    checkTransitions alphabet states t = Except.ok () ↔
      ∀ p ∈ t, p.1 ∈ states ∧ ∀ e ∈ p.2, e.1 ∈ alphabet ∧ ∀ d ∈ e.2, d ∈ states := by
  induction t with
  | nil => simp [checkTransitions]
  | cons p t ih =>
    obtain ⟨q, inner⟩ := p
    simp only [checkTransitions]
    split_ifs with h
    · cases hc : checkSymbols alphabet states inner with
      | error e =>
        have : ¬ ∀ e ∈ inner, e.1 ∈ alphabet ∧ ∀ d ∈ e.2, d ∈ states := by
          rw [← checkSymbols_ok, hc]; simp
        constructor
        · intro h'; exact absurd h' (by simp)
        · intro h'; exact absurd (h' _ (List.mem_cons_self _ _)).2 this
      | ok u =>
        have : ∀ e ∈ inner, e.1 ∈ alphabet ∧ ∀ d ∈ e.2, d ∈ states := by
          rw [← checkSymbols_ok, hc]
        simp only [ih, List.mem_cons, forall_eq_or_imp]
        exact ⟨fun h' => ⟨⟨h, this⟩, h'⟩, fun h' => h'.2⟩
    · simp [h]

theorem checkTransitions_error (alphabet states : List String) (t : Trans) (e : String)
    (h : checkTransitions alphabet states t = Except.error e) : TransitionError e := by
  induction t with
  | nil => simp [checkTransitions] at h
  | cons p t ih =>
    obtain ⟨q, inner⟩ := p
    simp only [checkTransitions] at h
    split_ifs at h with h1
    · cases hc : checkSymbols alphabet states inner with
      | error e' =>
        rw [hc] at h; cases h
        exact checkSymbols_error _ _ _ _ hc
      | ok u => rw [hc] at h; exact ih h
    · cases h
      exact ⟨"state " ++ q ++ " is not in states", by
        simp only [← String.append_assoc]; rfl⟩

theorem validate_ok_iff_valid (m : FA) :
    FA.validate_automaton m = Except.ok () ↔ m.Valid := by
  unfold FA.validate_automaton FA.Valid
  by_cases h1 : m.start = ""
  · simp [h1]
  rw [if_neg h1]
  by_cases h2 : m.start ∈ m.states
  · rw [if_neg (not_not.mpr h2)]
    cases hc : checkFinal m.states m.final with
    | error e =>
      have : ¬ ∀ f ∈ m.final, f ∈ m.states := by
        rw [← checkFinal_ok, hc]; simp
      constructor
      · intro h'; exact absurd h' (by simp)
      · intro h'; exact absurd h'.2.2.1 this
    | ok u =>
      have hf : ∀ f ∈ m.final, f ∈ m.states := by
        rw [← checkFinal_ok, hc]
      simp only [checkTransitions_ok]
      exact ⟨fun h' => ⟨h1, h2, hf, h'⟩, fun h' => h'.2.2.2⟩
  · rw [if_pos h2]
    constructor
    · intro h'; exact absurd h' (by simp)
    · intro h'; exact absurd h'.2.1 h2

theorem transitionError_head {e : String} (h : TransitionError e) :
    e.data.head? = some 'T' := by
  obtain ⟨rest, rfl⟩ := h
  simp [String.data_append]

/-- C3: `FA::validate_automaton` raises no error if and only if the start state is non-empty
and a member of `states`, every final state is a member of `states`, every state that is a
key of the transition map (a transition source) is a member of `states`, every symbol that is
a key under such a state is a member of `alphabet`, and every destination is a member of
`states`; on every other model it fails with an error. -/
theorem validate_automaton_ok_iff (m : FA) :
    (FA.validate_automaton m = Except.ok () ↔
      (m.start ≠ "" ∧ m.start ∈ m.states ∧ (∀ f ∈ m.final, f ∈ m.states) ∧
        ∀ p ∈ m.transitions, p.1 ∈ m.states ∧
          ∀ e ∈ p.2, e.1 ∈ m.alphabet ∧ ∀ d ∈ e.2, d ∈ m.states)) ∧
    (¬ m.Valid → ∃ e, FA.validate_automaton m = Except.error e) := by
  refine ⟨validate_ok_iff_valid m, fun h => ?_⟩
  cases hc : FA.validate_automaton m with
  | error e => exact ⟨e, rfl⟩
  | ok u => exact absurd ((validate_ok_iff_valid m).mp hc) h

/-- The validation succeeds on the sample NFA and fails on the model with an undeclared start
state. -/
theorem validate_automaton_ok_iff_witness :
    FA.validate_automaton sampleNFA = Except.ok () ∧
      ∃ e, FA.validate_automaton badStartFA = Except.error e :=
  ⟨(validate_automaton_ok_iff sampleNFA).1.mpr (by decide),
    (validate_automaton_ok_iff badStartFA).2 (by decide)⟩

/-- C4: the validation reports the earliest violated check. An absent start state gives
`No start state`; otherwise a start state outside `states` gives the start-membership error
naming it; otherwise a final state outside `states` gives the final-membership error naming
such a state; and an error of the transition-membership check is reported exactly when these
three checks pass. -/
theorem validate_automaton_error_order (m : FA) :
    (m.start = "" → FA.validate_automaton m = Except.error "No start state") ∧
    (m.start ≠ "" → m.start ∉ m.states →
      FA.validate_automaton m =
        Except.error ("Start state " ++ m.start ++ " is not in states")) ∧
    (m.start ≠ "" → m.start ∈ m.states → (∃ f ∈ m.final, f ∉ m.states) →
      ∃ f ∈ m.final, f ∉ m.states ∧
        FA.validate_automaton m =
          Except.error ("Final state " ++ f ++ " is not in states")) ∧
    (∀ e, FA.validate_automaton m = Except.error e →
      (TransitionError e ↔
        (m.start ≠ "" ∧ m.start ∈ m.states ∧ ∀ f ∈ m.final, f ∈ m.states))) := by
  have ha : m.start = "" → FA.validate_automaton m = Except.error "No start state" := by
    intro h; unfold FA.validate_automaton; rw [if_pos h]
  have hb : m.start ≠ "" → m.start ∉ m.states → FA.validate_automaton m =
      Except.error ("Start state " ++ m.start ++ " is not in states") := by
    intro h1 h2; unfold FA.validate_automaton; rw [if_neg h1, if_pos h2]
  have hc : m.start ≠ "" → m.start ∈ m.states → (∃ f ∈ m.final, f ∉ m.states) →
      ∃ f ∈ m.final, f ∉ m.states ∧ FA.validate_automaton m =
        Except.error ("Final state " ++ f ++ " is not in states") := by
    intro h1 h2 h3
    unfold FA.validate_automaton
    rw [if_neg h1, if_neg (not_not.mpr h2)]
    cases hf : checkFinal m.states m.final with
    | error e =>
      obtain ⟨f, hf1, hf2, rfl⟩ := checkFinal_error _ _ _ hf
      exact ⟨f, hf1, hf2, rfl⟩
    | ok u =>
      obtain ⟨f, hf1, hf2⟩ := h3
      exact absurd ((checkFinal_ok _ _).mp hf f hf1) hf2
  refine ⟨ha, hb, hc, ?_⟩
  intro e he
  constructor
  · intro hT
    have hhead := transitionError_head hT
    by_cases h1 : m.start = ""
    · rw [ha h1] at he; cases he; simp at hhead
    by_cases h2 : m.start ∈ m.states
    · refine ⟨h1, h2, ?_⟩
      by_contra h3
      push_neg at h3
      obtain ⟨f, _, _, hf⟩ := hc h1 h2 h3
      rw [hf] at he; cases he
      simp [String.data_append] at hhead
    · rw [hb h1 h2] at he; cases he
      simp [String.data_append] at hhead
  · rintro ⟨h1, h2, h3⟩
    unfold FA.validate_automaton at he
    rw [if_neg h1, if_neg (not_not.mpr h2), (checkFinal_ok _ _).mpr h3] at he
    exact checkTransitions_error _ _ _ _ he

/-- On the model whose start state `p` is undeclared and whose final states and transitions are
invalid as well, the error names the start state. -/
theorem validate_automaton_error_order_witness :
    FA.validate_automaton badStartFA = Except.error "Start state p is not in states" :=
  (validate_automaton_error_order badStartFA).2.1 (by decide) (by decide)

/-! ## The determinism check -/

theorem dfaCheckSymbols_get (q : String) (as : List String) (t : Trans) (q' a' : String) :
    transGet (dfaCheckSymbols q as t).2 q' a' = transGet t q' a' := by
  induction as generalizing t with
  | nil => rfl
  | cons a as ih =>
    simp only [dfaCheckSymbols]
    split_ifs
    · exact transGet_touch _ _ _ _ _
    · exact transGet_touch _ _ _ _ _
    · rw [ih, transGet_touch]

theorem dfaCheckSymbols_ok (q : String) (as : List String) (t : Trans) :
    (dfaCheckSymbols q as t).1 = Except.ok () ↔ ∀ a ∈ as, (transGet t q a).length = 1 := by
  induction as generalizing t with
  | nil => simp [dfaCheckSymbols]
  | cons a as ih =>
    simp only [dfaCheckSymbols, transGet_touch, List.mem_cons, forall_eq_or_imp]
    split_ifs with h1 h2
    · simp [h1]
    · constructor
      · intro h; exact absurd h (by simp)
      · intro h; omega
    · rw [ih]
      simp only [transGet_touch]
      constructor
      · intro h; exact ⟨by omega, h⟩
      · intro h; exact h.2

theorem dfaCheckSymbols_error (q : String) (as : List String) (t : Trans) (e : String)
    (h : (dfaCheckSymbols q as t).1 = Except.error e) :
    ∃ a ∈ as,
      (transGet t q a = [] ∧ e = "State " ++ q ++ " has no transition for symbol " ++ a) ∨
      (1 < (transGet t q a).length ∧
        e = "State " ++ q ++ " has more than one transition for symbol " ++ a) := by
  induction as generalizing t with
  | nil => simp [dfaCheckSymbols] at h
  | cons a as ih =>
    simp only [dfaCheckSymbols, transGet_touch] at h
    split_ifs at h with h1 h2
    · cases h
      exact ⟨a, List.mem_cons_self _ _, Or.inl ⟨List.length_eq_zero.mp h1, rfl⟩⟩
    · cases h
      exact ⟨a, List.mem_cons_self _ _, Or.inr ⟨h2, rfl⟩⟩
    · obtain ⟨b, hb, hb'⟩ := ih _ h
      simp only [transGet_touch] at hb'
      exact ⟨b, List.mem_cons_of_mem _ hb, hb'⟩

theorem dfaCheckStates_get (alphabet : List String) (qs : List String) (t : Trans)
    (q' a' : String) :
    transGet (dfaCheckStates alphabet qs t).2 q' a' = transGet t q' a' := by
  induction qs generalizing t with
  | nil => rfl
  | cons q qs ih =>
    simp only [dfaCheckStates]
    have hg := dfaCheckSymbols_get q alphabet t q' a'
    cases hc : dfaCheckSymbols q alphabet t with
    | mk r t1 =>
      rw [hc] at hg
      cases r with
      | error e => exact hg
      | ok u => simp only; rw [ih]; exact hg

theorem dfaCheckStates_ok (alphabet : List String) (qs : List String) (t : Trans) :
    (dfaCheckStates alphabet qs t).1 = Except.ok () ↔
      ∀ q ∈ qs, ∀ a ∈ alphabet, (transGet t q a).length = 1 := by
  induction qs generalizing t with
  | nil => simp [dfaCheckStates]
  | cons q qs ih =>
    simp only [dfaCheckStates, List.mem_cons, forall_eq_or_imp]
    have hok := dfaCheckSymbols_ok q alphabet t
    have hg := dfaCheckSymbols_get q alphabet t
    cases hc : dfaCheckSymbols q alphabet t with
    | mk r t1 =>
      rw [hc] at hok hg
      cases r with
      | error e =>
        constructor
        · intro h; exact absurd h (by simp)
        · intro h; exact absurd (hok.mpr h.1) (by simp)
      | ok u =>
        simp only
        rw [ih]
        simp only [hg]
        exact ⟨fun h => ⟨hok.mp rfl, h⟩, fun h => h.2⟩

theorem dfaCheckStates_error (alphabet : List String) (qs : List String) (t : Trans)
    (e : String) (h : (dfaCheckStates alphabet qs t).1 = Except.error e) :
    ∃ q ∈ qs, ∃ a ∈ alphabet,
      (transGet t q a = [] ∧ e = "State " ++ q ++ " has no transition for symbol " ++ a) ∨
      (1 < (transGet t q a).length ∧
        e = "State " ++ q ++ " has more than one transition for symbol " ++ a) := by
  induction qs generalizing t with
  | nil => simp [dfaCheckStates] at h
  | cons q qs ih =>
    simp only [dfaCheckStates] at h
    have herr := dfaCheckSymbols_error q alphabet t
    have hg := dfaCheckSymbols_get q alphabet t
    cases hc : dfaCheckSymbols q alphabet t with
    | mk r t1 =>
      rw [hc] at h herr hg
      cases r with
      | error e' =>
        simp only at h
        obtain ⟨a, ha, ha'⟩ := herr e' rfl
        cases h
        exact ⟨q, List.mem_cons_self _ _, a, ha, ha'⟩
      | ok u =>
        simp only at h
        obtain ⟨q', hq', a, ha, ha'⟩ := ih _ h
        simp only [hg] at ha'
        exact ⟨q', List.mem_cons_of_mem _ hq', a, ha, ha'⟩

theorem dfa_validate_fst_of_valid (m : FA) (hv : m.Valid) :
    (DFA.validate_automaton m).1 = (dfaCheckStates m.alphabet m.states m.transitions).1 := by
  unfold DFA.validate_automaton
  rw [(validate_ok_iff_valid m).mpr hv]

/-- C5: on a model that satisfies invariants 1-3, `DFA::validate_automaton` succeeds if and
only if every state of `states` has exactly one destination on every symbol of `alphabet`;
and when `(q, a)` is the only pair that violates this, the error names `q` and `a`:
`has no transition` when its destination set is empty, `has more than one transition` when it
has two or more elements. -/
theorem dfa_validate_automaton_iff (m : FA) (hv : m.Valid) :
    ((DFA.validate_automaton m).1 = Except.ok () ↔
      ∀ q ∈ m.states, ∀ a ∈ m.alphabet, (transGet m.transitions q a).length = 1) ∧
    (∀ q ∈ m.states, ∀ a ∈ m.alphabet,
      (∀ q' ∈ m.states, ∀ a' ∈ m.alphabet, (q', a') ≠ (q, a) →
        (transGet m.transitions q' a').length = 1) →
      (transGet m.transitions q a = [] →
        (DFA.validate_automaton m).1 =
          Except.error ("State " ++ q ++ " has no transition for symbol " ++ a)) ∧
      (2 ≤ (transGet m.transitions q a).length →
        (DFA.validate_automaton m).1 =
          Except.error ("State " ++ q ++ " has more than one transition for symbol " ++ a))) := by
  rw [dfa_validate_fst_of_valid m hv]
  refine ⟨dfaCheckStates_ok _ _ _, ?_⟩
  intro q hq a ha honly
  have key : ∀ e, (dfaCheckStates m.alphabet m.states m.transitions).1 = Except.error e →
      (transGet m.transitions q a = [] ∧
        e = "State " ++ q ++ " has no transition for symbol " ++ a) ∨
      (1 < (transGet m.transitions q a).length ∧
        e = "State " ++ q ++ " has more than one transition for symbol " ++ a) := by
    intro e he
    obtain ⟨q', hq', a', ha', hviol⟩ := dfaCheckStates_error _ _ _ _ he
    have hpair : (q', a') = (q, a) := by
      by_contra hne
      have h1 := honly q' hq' a' ha' hne
      rcases hviol with ⟨h0, _⟩ | ⟨h2, _⟩
      · rw [h0] at h1; simp at h1
      · omega
    cases hpair
    exact hviol
  have hfail : ¬ (transGet m.transitions q a).length = 1 →
      ∃ e, (dfaCheckStates m.alphabet m.states m.transitions).1 = Except.error e := by
    intro hne
    cases hc : (dfaCheckStates m.alphabet m.states m.transitions).1 with
    | error e => exact ⟨e, rfl⟩
    | ok u => exact absurd ((dfaCheckStates_ok _ _ _).mp hc q hq a ha) hne
  constructor
  · intro h0
    obtain ⟨e, he⟩ := hfail (by rw [h0]; simp)
    rcases key e he with ⟨_, rfl⟩ | ⟨h2, _⟩
    · exact he
    · rw [h0] at h2; simp at h2
  · intro h2
    obtain ⟨e, he⟩ := hfail (by omega)
    rcases key e he with ⟨h0, _⟩ | ⟨_, rfl⟩
    · rw [h0] at h2; simp at h2
    · exact he

/-- On the valid model in which only `(q1, a)` has no destination, the determinism check fails
with the error that names `q1` and `a`. -/
theorem dfa_validate_automaton_iff_witness :
    (DFA.validate_automaton missingFA).1 =
      Except.error "State q1 has no transition for symbol a" :=
  ((dfa_validate_automaton_iff missingFA (by decide)).2 "q1" (by decide) "a" (by decide)
    (by decide)).1 (by decide)

/-! ## The canonical name of a subset -/

theorem intercalate_go_append (x y s : String) (l : List String) :
    String.intercalate.go (x ++ y) s l = x ++ String.intercalate.go y s l := by
  induction l generalizing y with
  | nil => simp [String.intercalate.go]
  | cons c l ih =>
    simp only [String.intercalate.go]
    rw [String.append_assoc x y s, String.append_assoc x (y ++ s) c, ih]

theorem foldl_items_data (l : List String) (acc a : String) :
    ((a :: l).foldl (fun str item => str ++ (item ++ ",")) acc).data =
      (acc ++ String.intercalate.go a "," l).data ++ [','] := by
  induction l generalizing acc a with
  | nil => simp [String.intercalate.go, String.data_append]
  | cons b l ih =>
    rw [List.foldl_cons, ih]
    simp only [String.intercalate.go]
    rw [intercalate_go_append]
    simp only [String.append_assoc]

theorem set_to_string_two (a b : String) (l : List String) :
    FA.set_to_string (a :: b :: l) = "\x7b" ++ ",".intercalate (a :: b :: l) ++ "\x7d" := by
  simp only [FA.set_to_string, pop_back]
  rw [foldl_items_data]
  apply String.ext
  have hd : ∀ (c : Char) (l : List Char), (c :: (l ++ [','])).dropLast = c :: l := by
    intro c l
    have := @List.dropLast_concat _ (c :: l) ','

    simpa using this
  simp [String.data_append, String.intercalate, hd]

theorem setOfList_mem {xs : List String} {x : String} : x ∈ setOfList xs ↔ x ∈ xs := by
  unfold setOfList
  rw [mem_setInsertRange]
  simp

theorem setOfList_ascending (xs : List String) : Ascending (setOfList xs) :=
  ascending_setInsertRange ascending_nil

/-- C7: `set_to_string` computes the canonical name of a set of state names. For the set built
from any sequence of insertions, whose iteration order is the strictly ascending list of its
members: the empty set gives the empty string, a singleton gives its member unchanged, and a
set with two or more members gives `{`, the members in ascending order joined by single commas,
and `}`. -/
theorem set_to_string_canonical (xs : List String) :
    Ascending (setOfList xs) ∧ (∀ x, x ∈ setOfList xs ↔ x ∈ xs) ∧
    (setOfList xs = [] → FA.set_to_string (setOfList xs) = "") ∧
    (∀ s, setOfList xs = [s] → FA.set_to_string (setOfList xs) = s) ∧
    (2 ≤ (setOfList xs).length →
      FA.set_to_string (setOfList xs) = "\x7b" ++ ",".intercalate (setOfList xs) ++ "\x7d") := by
  refine ⟨setOfList_ascending xs, fun x => setOfList_mem, ?_, ?_, ?_⟩
  · intro h; rw [h]; rfl
  · intro s h; rw [h]; rfl
  · intro h
    match hs : setOfList xs, h with
    | a :: b :: l, _ => exact set_to_string_two a b l

/-- Inserting `q1`, `q0`, `q1` builds the set named `{q0,q1}`. -/
theorem set_to_string_canonical_witness :
    FA.set_to_string (setOfList ["q1", "q0", "q1"]) = "\x7bq0,q1\x7d" :=
  ((set_to_string_canonical ["q1", "q0", "q1"]).2.2.2.2 (by decide)).trans (by decide)

/-- C9: two insertion sequences with the same elements, in any order and with any
repetitions, build sets with the same `set_to_string` name. -/
theorem set_to_string_insertion_order (xs ys : List String) (h : ∀ x, x ∈ xs ↔ x ∈ ys) :
    FA.set_to_string (setOfList xs) = FA.set_to_string (setOfList ys) := by
  have : setOfList xs = setOfList ys :=
    ascending_ext (setOfList_ascending xs) (setOfList_ascending ys)
      (fun z => by rw [setOfList_mem, setOfList_mem, h])
  rw [this]

/-- The sequences `q1, q0, q1` and `q0, q1, q0, q0` give the same name. -/
theorem set_to_string_insertion_order_witness :
    FA.set_to_string (setOfList ["q1", "q0", "q1"]) =
      FA.set_to_string (setOfList ["q0", "q1", "q0", "q0"]) :=
  set_to_string_insertion_order ["q1", "q0", "q1"] ["q0", "q1", "q0", "q0"] (by simp; tauto)

/-! ## One step of the loop over the alphabet -/

theorem setInsert_idem (x : String) (l : List String) :
    setInsert x (setInsert x l) = setInsert x l := by
  induction l with
  | nil => simp [setInsert, strLt_irrefl]
  | cons y ys ih =>
    by_cases h1 : strLt x y = true
    · simp [setInsert, h1, strLt_irrefl]
    · by_cases h2 : strLt y x = true
      · simp [setInsert, h1, h2, ih]
      · simp [setInsert, h1, h2]

theorem setInsert_nil (x : String) : setInsert x [] = [x] := rfl

theorem setInsert_self (x : String) : setInsert x [x] = [x] := by
  simp [setInsert, strLt_irrefl]

theorem mem_usetInsert {x z : String} {l : List String} :
    z ∈ usetInsert x l ↔ z = x ∨ z ∈ l := by
  unfold usetInsert
  split_ifs with h
  · constructor
    · exact Or.inr
    · rintro (rfl | h') <;> assumption
  · simp only [List.mem_append, List.mem_singleton]; tauto

theorem transGet_sinkLoops (L : List String) (t : Trans) (q a : String) :
    transGet (L.foldl (fun t b => transUpdate t "SINK" b (setInsert "SINK")) t) q a =
      if q = "SINK" ∧ a ∈ L then setInsert "SINK" (transGet t q a) else transGet t q a := by
  induction L generalizing t with
  | nil => simp
  | cons b L ih =>
    rw [List.foldl_cons, ih, transGet_transUpdate]
    by_cases hq : q = "SINK"
    · subst hq
      by_cases hb : b = a
      · subst hb
        by_cases hL : b ∈ L <;> simp [hL, setInsert_idem]
      · have hb' : ¬ a = b := fun e => hb e.symm
        by_cases hL : a ∈ L <;> simp [hL, hb, hb']
    · have hq' : ¬ "SINK" = q := fun e => hq e.symm
      simp [hq, hq']

theorem transGet_sinkBranch (A : List String) (cur sym : String) (dfa : FA) (q a : String) :
    transGet (sinkBranch A cur sym dfa).transitions q a =
      if cur = q ∧ sym = a then ["SINK"]
      else if q = "SINK" ∧ a ∈ A then setInsert "SINK" (transGet dfa.transitions q a)
      else transGet dfa.transitions q a := by
  simp only [sinkBranch, transGet_transUpdate, transGet_sinkLoops]

theorem symbolStep_get (nfa : FA) (C : List String) (cur : String) (st : ConvState)
    (a q b : String) :
    transGet (symbolStep nfa C cur st a).dfa.transitions q b =
      if nextStates nfa.transitions C a ≠ [] then
        if cur = q ∧ a = b then
          setInsert (FA.set_to_string (nextStates nfa.transitions C a))
            (transGet st.dfa.transitions cur a)
        else transGet st.dfa.transitions q b
      else if cur = q ∧ a = b then ["SINK"]
      else if q = "SINK" ∧ b ∈ nfa.alphabet then
        setInsert "SINK" (transGet st.dfa.transitions q b)
      else transGet st.dfa.transitions q b := by
  unfold symbolStep
  by_cases h1 : nextStates nfa.transitions C a ≠ []
  · rw [if_pos h1, if_pos h1]
    by_cases h2 : nextStates nfa.transitions C a ∈ st.visited
    · rw [if_pos h2]; simp only [transGet_transUpdate]
    · rw [if_neg h2]; simp only [transGet_transUpdate]
  · rw [if_neg h1, if_neg h1]; simp only [transGet_sinkBranch]

theorem symbolStep_states (nfa : FA) (C : List String) (cur : String) (st : ConvState)
    (a : String) :
    (symbolStep nfa C cur st a).dfa.states =
      if nextStates nfa.transitions C a ≠ [] then st.dfa.states
      else usetInsert "SINK" st.dfa.states := by
  unfold symbolStep
  split_ifs <;> simp_all [sinkBranch]

theorem symbolStep_final (nfa : FA) (C : List String) (cur : String) (st : ConvState)
    (a : String) : (symbolStep nfa C cur st a).dfa.final = st.dfa.final := by
  unfold symbolStep
  split_ifs <;> simp [sinkBranch]

theorem symbolStep_alphabet (nfa : FA) (C : List String) (cur : String) (st : ConvState)
    (a : String) : (symbolStep nfa C cur st a).dfa.alphabet = st.dfa.alphabet := by
  unfold symbolStep
  split_ifs <;> simp [sinkBranch]

theorem symbolStep_start (nfa : FA) (C : List String) (cur : String) (st : ConvState)
    (a : String) : (symbolStep nfa C cur st a).dfa.start = st.dfa.start := by
  unfold symbolStep
  split_ifs <;> simp [sinkBranch]

/-- The subsets that one step pushes: the successor when it is non-empty and not yet visited. -/
theorem symbolStep_pushes (nfa : FA) (C : List String) (cur : String) (st : ConvState)
    (a : String) :
    ∃ pushed : List (List String),
      (symbolStep nfa C cur st a).visited = st.visited ++ pushed ∧
      (symbolStep nfa C cur st a).queue = st.queue ++ pushed ∧
      (pushed = [] ∨ (pushed = [nextStates nfa.transitions C a] ∧
        nextStates nfa.transitions C a ≠ [] ∧
        nextStates nfa.transitions C a ∉ st.visited)) ∧
      (nextStates nfa.transitions C a ≠ [] →
        nextStates nfa.transitions C a ∈ st.visited ++ pushed) := by
  unfold symbolStep
  split_ifs with h1 h2
  · exact ⟨[], by simp, by simp, Or.inl rfl, fun _ => by simpa using h2⟩
  · exact ⟨[nextStates nfa.transitions C a], rfl, rfl, Or.inr ⟨rfl, h1, h2⟩, fun _ => by simp⟩
  · exact ⟨[], by simp, by simp, Or.inl rfl, fun h => absurd h h1⟩

theorem grows_refl (st : ConvState) : Grows st st :=
  ⟨fun _ h => h, fun _ h => h, fun _ _ h => h, fun _ h => h, fun _ h => h,
    fun _ h => Or.inl h, rfl, rfl⟩

theorem grows_trans {s1 s2 s3 : ConvState} (h12 : Grows s1 s2) (h23 : Grows s2 s3) :
    Grows s1 s3 where
  states x h := h23.states x (h12.states x h)
  final x h := h23.final x (h12.final x h)
  cells q a h := h23.cells q a (h12.cells q a h)
  visited D h := h23.visited D (h12.visited D h)
  queue D h := h23.queue D (h12.queue D h)
  fresh D h := by
    rcases h23.fresh D h with h' | h'
    · rcases h12.fresh D h' with h'' | h''
      · exact Or.inl h''
      · exact Or.inr (h23.queue D h'')
    · exact Or.inr h'
  alphabet := h23.alphabet.trans h12.alphabet
  start := h23.start.trans h12.start

theorem symbolStep_grows (nfa : FA) (C : List String) (cur : String) (st : ConvState)
    (a : String) : Grows st (symbolStep nfa C cur st a) := by
  obtain ⟨pushed, hv, hq, _, _⟩ := symbolStep_pushes nfa C cur st a
  refine ⟨?_, ?_, ?_, ?_, ?_, ?_, symbolStep_alphabet _ _ _ _ _, symbolStep_start _ _ _ _ _⟩
  · intro x hx
    rw [symbolStep_states]
    split_ifs
    · exact hx
    · exact mem_usetInsert.mpr (Or.inr hx)
  · intro x hx; rw [symbolStep_final]; exact hx
  · intro q b hne
    rw [symbolStep_get]
    split_ifs <;> first | exact hne | exact setInsert_ne_nil _ _ | simp
  · intro D hD; rw [hv]; exact List.mem_append_left _ hD
  · intro D hD; rw [hq]; exact List.mem_append_left _ hD
  · intro D hD
    rw [hv] at hD; rw [hq]
    rcases List.mem_append.mp hD with h | h
    · exact Or.inl h
    · exact Or.inr (List.mem_append_right _ h)

theorem symbolStep_cellDone (nfa : FA) (C : List String) (st : ConvState) (a : String) :
    CellDone nfa C a (symbolStep nfa C (FA.set_to_string C) st a) := by
  obtain ⟨pushed, hv, _, _, hin⟩ := symbolStep_pushes nfa C (FA.set_to_string C) st a
  refine ⟨?_, ?_, ?_⟩
  · rw [symbolStep_get]
    split_ifs <;> first | exact setInsert_ne_nil _ _ | simp_all
  · intro h; rw [hv]; exact hin h
  · intro h
    constructor
    · rw [symbolStep_states, if_neg (not_not.mpr h)]
      exact mem_usetInsert.mpr (Or.inl rfl)
    · intro b hb
      rw [symbolStep_get, if_neg (not_not.mpr h)]
      split_ifs <;> first | exact setInsert_ne_nil _ _ | simp_all

theorem cellDone_mono {nfa : FA} {C : List String} {a : String} {st st' : ConvState}
    (hg : Grows st st') (h : CellDone nfa C a st) : CellDone nfa C a st' :=
  ⟨hg.cells _ _ h.1, fun hne => hg.visited _ (h.2.1 hne),
    fun he => ⟨hg.states _ (h.2.2 he).1, fun b hb => hg.cells _ _ ((h.2.2 he).2 b hb)⟩⟩

theorem complete_mono {nfa : FA} {C : List String} {st st' : ConvState}
    (hg : Grows st st') (h : Complete nfa st C) : Complete nfa st' C :=
  ⟨hg.states _ h.1, fun hf => hg.final _ (h.2.1 hf), fun a ha => cellDone_mono hg (h.2.2 a ha)⟩

/-! ## The loop body -/

theorem foldl_inv {σ α : Type} (P : σ → Prop) (f : σ → α → σ) (l : List α)
    (h : ∀ s, P s → ∀ a ∈ l, P (f s a)) (s : σ) (hs : P s) : P (l.foldl f s) := by
  induction l generalizing s with
  | nil => exact hs
  | cons a l ih =>
    exact ih (fun s hs b hb => h s hs b (List.mem_cons_of_mem _ hb)) _
      (h s hs a (List.mem_cons_self _ _))

theorem symbolLoop_grows (nfa : FA) (C : List String) (cur : String) (A : List String)
    (st : ConvState) : Grows st (A.foldl (symbolStep nfa C cur) st) :=
  foldl_inv (fun s => Grows st s) _ A
    (fun _ hs a _ => grows_trans hs (symbolStep_grows nfa C cur _ a)) st (grows_refl st)

theorem symbolLoop_cellDone (nfa : FA) (C : List String) (A : List String) (st : ConvState) :
    ∀ a ∈ A, CellDone nfa C a (A.foldl (symbolStep nfa C (FA.set_to_string C)) st) := by
  induction A generalizing st with
  | nil => intro a ha; cases ha
  | cons b A ih =>
    intro a ha
    rw [List.foldl_cons]
    by_cases hA : a ∈ A
    · exact ih _ a hA
    · rcases List.mem_cons.mp ha with rfl | h
      · exact cellDone_mono (symbolLoop_grows _ _ _ _ _) (symbolStep_cellDone nfa C st a)
      · exact absurd h hA

theorem markFinal_grows (st : ConvState) (x : String) :
    Grows st { st with dfa := { st.dfa with final := usetInsert x st.dfa.final } } :=
  ⟨fun _ h => h, fun _ h => mem_usetInsert.mpr (Or.inr h), fun _ _ h => h, fun _ h => h,
    fun _ h => h, fun _ h => Or.inl h, rfl, rfl⟩

theorem addState_grows (st : ConvState) (x : String) :
    Grows st { st with dfa := { st.dfa with states := usetInsert x st.dfa.states } } :=
  ⟨fun _ h => mem_usetInsert.mpr (Or.inr h), fun _ h => h, fun _ _ h => h, fun _ h => h,
    fun _ h => h, fun _ h => Or.inl h, rfl, rfl⟩

theorem stateStep_grows (nfa : FA) (C : List String) (cur : String) (st : ConvState)
    (s : String) : Grows st (stateStep nfa C cur st s) := by
  unfold stateStep
  split_ifs
  · exact grows_trans (markFinal_grows st cur) (symbolLoop_grows _ _ _ _ _)
  · exact symbolLoop_grows _ _ _ _ _

theorem stateStep_cellDone (nfa : FA) (C : List String) (st : ConvState) (s : String) :
    ∀ a ∈ nfa.alphabet, CellDone nfa C a (stateStep nfa C (FA.set_to_string C) st s) := by
  unfold stateStep
  exact symbolLoop_cellDone _ _ _ _

theorem stateStep_final (nfa : FA) (C : List String) (cur : String) (st : ConvState)
    (s : String) (hs : s ∈ nfa.final) : cur ∈ (stateStep nfa C cur st s).dfa.final := by
  unfold stateStep
  rw [if_pos hs]
  exact (symbolLoop_grows _ _ _ _ _).final _ (mem_usetInsert.mpr (Or.inl rfl))

theorem stateLoop_grows (nfa : FA) (C : List String) (cur : String) (L : List String)
    (st : ConvState) : Grows st (L.foldl (stateStep nfa C cur) st) :=
  foldl_inv (fun s => Grows st s) _ L
    (fun _ hs a _ => grows_trans hs (stateStep_grows nfa C cur _ a)) st (grows_refl st)

theorem stateLoop_final (nfa : FA) (C : List String) (cur : String) (L : List String)
    (st : ConvState) :
    ∀ s ∈ L, s ∈ nfa.final → cur ∈ (L.foldl (stateStep nfa C cur) st).dfa.final := by
  induction L generalizing st with
  | nil => intro s hs; cases hs
  | cons x L ih =>
    intro s hs hf
    rw [List.foldl_cons]
    rcases List.mem_cons.mp hs with rfl | h
    · exact (stateLoop_grows _ _ _ _ _).final _ (stateStep_final _ _ _ _ _ hf)
    · exact ih _ s h hf

theorem stateLoop_cellDone (nfa : FA) (C : List String) (L : List String) (st : ConvState)
    (hL : L ≠ []) :
    ∀ a ∈ nfa.alphabet,
      CellDone nfa C a (L.foldl (stateStep nfa C (FA.set_to_string C)) st) := by
  cases L with
  | nil => exact absurd rfl hL
  | cons x L =>
    intro a ha
    rw [List.foldl_cons]
    exact cellDone_mono (stateLoop_grows _ _ _ _ _) (stateStep_cellDone nfa C st x a ha)

theorem processSubset_grows (nfa : FA) (st : ConvState) (C : List String) :
    Grows st (processSubset nfa st C) := by
  unfold processSubset
  exact grows_trans (addState_grows st _) (stateLoop_grows _ _ _ _ _)

theorem processSubset_complete (nfa : FA) (st : ConvState) (C : List String) (hC : C ≠ []) :
    Complete nfa (processSubset nfa st C) C := by
  unfold processSubset
  refine ⟨?_, ?_, ?_⟩
  · exact (stateLoop_grows _ _ _ _ _).states _ (mem_usetInsert.mpr (Or.inl rfl))
  · rintro ⟨s, hs, hf⟩
    exact stateLoop_final _ _ _ _ _ s hs hf
  · exact stateLoop_cellDone _ _ _ _ hC

/-- An invariant of the three updates of the loop body is an invariant of the body. -/
theorem processSubset_inv (P : ConvState → Prop) (nfa : FA) (C : List String)
    (hstates : ∀ s, P s →
      P { s with dfa := { s.dfa with states := usetInsert (FA.set_to_string C) s.dfa.states } })
    (hfinal : ∀ s, P s → (∃ x ∈ C, x ∈ nfa.final) →
      P { s with dfa := { s.dfa with final := usetInsert (FA.set_to_string C) s.dfa.final } })
    (hsym : ∀ s, P s → ∀ a ∈ nfa.alphabet, P (symbolStep nfa C (FA.set_to_string C) s a))
    (st : ConvState) (h : P st) : P (processSubset nfa st C) := by
  unfold processSubset
  apply foldl_inv P _ C _ _ (hstates st h)
  intro s hs x hx
  unfold stateStep
  apply foldl_inv P _ nfa.alphabet hsym
  split_ifs with hf
  · exact hfinal s hs ⟨x, hx, hf⟩
  · exact hs

/-! ## The work queue -/

theorem reach_ne_nil {nfa : FA} {C : List String} (h : Reach nfa C) : C ≠ [] := by
  cases h with
  | start => simp
  | step C a _ _ hne => exact hne

theorem reach_ascending {nfa : FA} {C : List String} (h : Reach nfa C) : Ascending C := by
  cases h with
  | start => exact ascending_singleton _
  | step C a _ _ _ => exact ascending_nextStates _ _ _

theorem reach_subset {nfa : FA} {U : List String} (hU : Closed nfa U) {C : List String}
    (h : Reach nfa C) : ∀ s ∈ C, s ∈ U := by
  cases h with
  | start => intro s hs; rw [List.mem_singleton.mp hs]; exact hU.1
  | step C a _ _ _ =>
    intro s hs
    obtain ⟨q, _, hq⟩ := mem_nextStates.mp hs
    exact hU.2 q a s hq

theorem symbolStep_basic {nfa : FA} {C : List String} (hC : Reach nfa C) (cur : String)
    (popped : List (List String)) (st : ConvState) (h : Basic nfa popped st) (a : String)
    (ha : a ∈ nfa.alphabet) : Basic nfa popped (symbolStep nfa C cur st a) := by
  obtain ⟨pushed, hv, hq, hp, _⟩ := symbolStep_pushes nfa C cur st a
  obtain ⟨h1, h2, h3⟩ := h
  refine ⟨?_, ?_, ?_⟩
  · rw [hv, hq, h1, List.append_assoc]
  · rw [hv]
    rcases hp with rfl | ⟨rfl, _, hnew⟩
    · simpa using h2
    · rw [List.nodup_append]
      refine ⟨h2, List.nodup_singleton _, ?_⟩
      intro D hD hD'
      rw [List.mem_singleton.mp hD'] at hD
      exact hnew hD
  · intro D hD
    rw [hv] at hD
    rcases List.mem_append.mp hD with h | h
    · exact h3 D h
    · rcases hp with rfl | ⟨rfl, hne, _⟩
      · cases h
      · rw [List.mem_singleton.mp h]
        exact Reach.step C a hC ha hne

theorem processSubset_basic {nfa : FA} {C : List String} (hC : Reach nfa C)
    (popped : List (List String)) (st : ConvState) (h : Basic nfa popped st) :
    Basic nfa popped (processSubset nfa st C) :=
  processSubset_inv (Basic nfa popped) nfa C (fun _ hs => hs) (fun _ hs _ => hs)
    (fun s hs a ha => symbolStep_basic hC _ popped s hs a ha) st h

theorem loopIter_basic (nfa : FA) : ∀ (n : Nat) (st : ConvState) (popped : List (List String)),
    Basic nfa popped st →
    ∃ popped', Basic nfa popped' (loopIter nfa n st) ∧
      popped'.length = popped.length + popCount nfa n st
  | 0, st, popped, h => ⟨popped, h, rfl⟩
  | _ + 1, ⟨_, [], _⟩, popped, h => ⟨popped, h, rfl⟩
  | n + 1, ⟨dfa, C :: q, vis⟩, popped, h => by
    have hC : Reach nfa C := h.2.2 C (by rw [h.1]; simp)
    have h0 : Basic nfa (popped ++ [C]) ⟨dfa, q, vis⟩ :=
      ⟨by rw [h.1]; simp, h.2.1, h.2.2⟩
    obtain ⟨popped', hb, hlen⟩ :=
      loopIter_basic nfa n _ _ (processSubset_basic hC _ _ h0)
    refine ⟨popped', hb, ?_⟩
    rw [hlen]
    simp only [popCount, List.length_append, List.length_singleton]
    omega

theorem popCount_of_queue_ne (nfa : FA) : ∀ (n : Nat) (st : ConvState),
    (loopIter nfa n st).queue ≠ [] → popCount nfa n st = n
  | 0, _, _ => rfl
  | _ + 1, ⟨_, [], _⟩, h => absurd rfl h
  | n + 1, ⟨dfa, C :: q, vis⟩, h => by
    simp only [popCount]
    rw [popCount_of_queue_ne nfa n _ h]

theorem initState_basic (nfa : FA) : Basic nfa [] (initState nfa) :=
  ⟨rfl, List.nodup_singleton _, fun D hD => by
    rw [List.mem_singleton.mp hD]; exact Reach.start⟩

/-! ## Termination -/

theorem visited_length_le {nfa : FA} {U : List String} (hU : Closed nfa U)
    (l : List (List String)) (hnd : l.Nodup) (hr : ∀ D ∈ l, Reach nfa D) :
    l.length ≤ 2 ^ U.length := by
  have hinj : ∀ D ∈ l, ∀ E ∈ l, D.toFinset = E.toFinset → D = E := by
    intro D hD E hE h
    apply ascending_ext (reach_ascending (hr D hD)) (reach_ascending (hr E hE))
    intro z
    rw [← List.mem_toFinset, h, List.mem_toFinset]
  have hnd' : (l.map List.toFinset).Nodup := List.Nodup.map_on hinj hnd
  have hsub : (l.map List.toFinset).toFinset ⊆ U.toFinset.powerset := by
    intro S hS
    rw [List.mem_toFinset, List.mem_map] at hS
    obtain ⟨D, hD, rfl⟩ := hS
    rw [Finset.mem_powerset]
    intro s hs
    rw [List.mem_toFinset] at hs ⊢
    exact reach_subset hU (hr D hD) s hs
  calc l.length = (l.map List.toFinset).length := by simp
    _ = (l.map List.toFinset).toFinset.card := (List.toFinset_card_of_nodup hnd').symm
    _ ≤ U.toFinset.powerset.card := Finset.card_le_card hsub
    _ = 2 ^ U.toFinset.card := Finset.card_powerset _
    _ ≤ 2 ^ U.length := Nat.pow_le_pow_right (by norm_num) (List.toFinset_card_le U)

theorem popCount_le {nfa : FA} {U : List String} (hU : Closed nfa U) (n : Nat) :
    popCount nfa n (initState nfa) ≤ 2 ^ U.length := by
  obtain ⟨popped, hb, hlen⟩ := loopIter_basic nfa n _ _ (initState_basic nfa)
  have hle := visited_length_le hU _ hb.2.1 hb.2.2
  rw [hb.1, List.length_append, hlen] at hle
  simp only [List.length_nil] at hle
  omega

theorem loopIter_queue_nil {nfa : FA} {U : List String} (hU : Closed nfa U) (n : Nat)
    (hn : 2 ^ U.length ≤ n) : (loopIter nfa n (initState nfa)).queue = [] := by
  by_contra hne
  obtain ⟨popped, hb, hlen⟩ := loopIter_basic nfa n _ _ (initState_basic nfa)
  have hle := visited_length_le hU _ hb.2.1 hb.2.2
  rw [hb.1, List.length_append, hlen, popCount_of_queue_ne nfa n _ hne] at hle
  have hpos : 0 < (loopIter nfa n (initState nfa)).queue.length :=
    List.length_pos.mpr hne
  simp only [List.length_nil] at hle
  omega

theorem to_dfa_of_queue_nil {nfa : FA} {n : Nat}
    (h : (loopIter nfa n (initState nfa)).queue = []) :
    NFA.to_dfa n nfa = some (loopIter nfa n (initState nfa)).dfa := by
  unfold NFA.to_dfa
  rw [h]

theorem to_dfa_eq_some {nfa : FA} {n : Nat} {d : FA} (h : NFA.to_dfa n nfa = some d) :
    (loopIter nfa n (initState nfa)).queue = [] ∧ (loopIter nfa n (initState nfa)).dfa = d := by
  unfold NFA.to_dfa at h
  cases hq : (loopIter nfa n (initState nfa)).queue with
  | nil => rw [hq] at h; exact ⟨rfl, Option.some.inj h⟩
  | cons C q => rw [hq] at h; cases h

theorem mem_innerDests {inner : List (String × List String)} {e : String × List String}
    {d : String} (he : e ∈ inner) (hd : d ∈ e.2) : d ∈ innerDests inner := by
  induction inner with
  | nil => cases he
  | cons p inner ih =>
    obtain ⟨a, ds⟩ := p
    simp only [innerDests, List.mem_append]
    rcases List.mem_cons.mp he with rfl | h
    · exact Or.inl hd
    · exact Or.inr (ih h)

theorem mem_allDests {t : Trans} {p : String × List (String × List String)}
    {e : String × List String} {d : String} (hp : p ∈ t) (he : e ∈ p.2) (hd : d ∈ e.2) :
    d ∈ allDests t := by
  induction t with
  | nil => cases hp
  | cons p0 t ih =>
    obtain ⟨q, inner⟩ := p0
    simp only [allDests, List.mem_append]
    rcases List.mem_cons.mp hp with rfl | h
    · exact Or.inl (mem_innerDests he hd)
    · exact Or.inr (ih h)

theorem closed_allDests (nfa : FA) : Closed nfa (nfa.start :: allDests nfa.transitions) := by
  refine ⟨List.mem_cons_self _ _, ?_⟩
  intro q a d hd
  obtain ⟨p, hp, _, e, he, _, hde⟩ := transGet_mem_entries hd
  exact List.mem_cons_of_mem _ (mem_allDests hp he hde)

theorem closed_of_valid {nfa : FA} (hv : nfa.Valid) : Closed nfa nfa.states := by
  refine ⟨hv.2.1, ?_⟩
  intro q a d hd
  obtain ⟨p, hp, _, e, he, _, hde⟩ := transGet_mem_entries hd
  exact ((hv.2.2.2 p hp).2 e he).2 d hde

/-- C10: `NFA::to_dfa` terminates on every model: some number of iterations empties the queue.
Every subset is pushed at most once: at any point of the loop the sequence of pushed subsets
(the visited sequence) has no repetition and consists of the popped subsets followed by the
queue. On a model that satisfies invariants 1-3 at most `2 ^ |states|` subsets are popped, and
that many iterations are enough for the loop to end. -/
theorem to_dfa_terminates (nfa : FA) :
    (∃ fuel d, NFA.to_dfa fuel nfa = some d) ∧
    (∀ fuel, ∃ popped : List (List String),
      (loopIter nfa fuel (initState nfa)).visited =
        popped ++ (loopIter nfa fuel (initState nfa)).queue ∧
      popped.length = popCount nfa fuel (initState nfa) ∧
      (loopIter nfa fuel (initState nfa)).visited.Nodup) ∧
    (nfa.Valid →
      (∀ fuel, popCount nfa fuel (initState nfa) ≤ 2 ^ nfa.states.length) ∧
      ∃ d, NFA.to_dfa (2 ^ nfa.states.length) nfa = some d) := by
  refine ⟨?_, ?_, ?_⟩
  · exact ⟨_, _, to_dfa_of_queue_nil
      (loopIter_queue_nil (closed_allDests nfa) _ (le_refl _))⟩
  · intro fuel
    obtain ⟨popped, hb, hlen⟩ := loopIter_basic nfa fuel _ _ (initState_basic nfa)
    exact ⟨popped, hb.1, by simpa using hlen, hb.2.1⟩
  · intro hv
    exact ⟨fun fuel => popCount_le (closed_of_valid hv) fuel,
      _, to_dfa_of_queue_nil (loopIter_queue_nil (closed_of_valid hv) _ (le_refl _))⟩

/-- On the sample NFA, which has two states, the loop ends within four iterations. -/
theorem to_dfa_terminates_witness :
    ∃ d, NFA.to_dfa (2 ^ sampleNFA.states.length) sampleNFA = some d :=
  ((to_dfa_terminates sampleNFA).2.2 (by decide)).2

/-! ## Invariants of the construction -/

theorem addState_shape {nfa : FA} {C : List String} (hsink : NoSinkName nfa)
    (hC : Reach nfa C) (st : ConvState) (h : Shape nfa st ∧ C ∈ st.visited) :
    Shape nfa { st with dfa := { st.dfa with
      states := usetInsert (FA.set_to_string C) st.dfa.states } } ∧ C ∈ st.visited := by
  obtain ⟨⟨k1, k2, s3, s4, s5, s6, s7⟩, hvis⟩ := h
  refine ⟨⟨k1, ?_, s3, s4, ?_, s6, s7⟩, hvis⟩
  · intro hmem
    rcases mem_usetInsert.mp hmem with e | h'
    · exact absurd e.symm (hsink C hC)
    · exact k2 h'
  · intro x hx
    rcases mem_usetInsert.mp hx with e | h'
    · exact Or.inr ⟨C, hvis, e.symm⟩
    · exact s5 x h'

theorem markFinal_shape {nfa : FA} {C : List String} (hC : Reach nfa C) (st : ConvState)
    (h : Shape nfa st ∧ C ∈ st.visited) (hf : ∃ x ∈ C, x ∈ nfa.final) :
    Shape nfa { st with dfa := { st.dfa with
      final := usetInsert (FA.set_to_string C) st.dfa.final } } ∧ C ∈ st.visited := by
  obtain ⟨⟨k1, k2, s3, s4, s5, s6, s7⟩, hvis⟩ := h
  refine ⟨⟨k1, k2, s3, ?_, s5, s6, s7⟩, hvis⟩
  intro x hx
  rcases mem_usetInsert.mp hx with e | h'
  · exact ⟨C, hC, e.symm, hf⟩
  · exact s4 x h'

theorem symbolStep_shape {nfa : FA} {C : List String} (hsink : NoSinkName nfa)
    (hC : Reach nfa C) (st : ConvState) (h : Shape nfa st ∧ C ∈ st.visited) (a : String)
    (ha : a ∈ nfa.alphabet) :
    Shape nfa (symbolStep nfa C (FA.set_to_string C) st a) ∧
      C ∈ (symbolStep nfa C (FA.set_to_string C) st a).visited := by
  obtain ⟨⟨k1, k2, s3, s4, s5, s6, s7⟩, hvis⟩ := h
  have hne : FA.set_to_string C ≠ "SINK" := hsink C hC
  have hg := symbolStep_grows nfa C (FA.set_to_string C) st a
  refine ⟨⟨?_, ?_, ?_, ?_, ?_, ?_, ?_⟩, hg.visited C hvis⟩
  · intro b
    rw [symbolStep_get]
    by_cases h1 : nextStates nfa.transitions C a ≠ []
    · rw [if_pos h1, if_neg (fun h => hne h.1)]
      exact k1 b
    · rw [if_neg h1, if_neg (fun h => hne h.1)]
      split_ifs with h2
      · rcases k1 b with e | e <;> rw [e]
        · exact Or.inr (setInsert_nil _)
        · exact Or.inr (setInsert_self _)
      · exact k1 b
  · intro hmem b hb
    by_cases h1 : nextStates nfa.transitions C a = []
    · exact ((symbolStep_cellDone nfa C st a).2.2 h1).2 b hb
    · rw [symbolStep_states, if_pos h1] at hmem
      exact hg.cells _ _ (k2 hmem b hb)
  · intro q b hcell
    rw [symbolStep_get] at hcell
    by_cases h2 : FA.set_to_string C = q ∧ a = b
    · exact ⟨h2.2 ▸ ha, Or.inr ⟨C, hC, h2.1⟩⟩
    · by_cases h1 : nextStates nfa.transitions C a ≠ []
      · rw [if_pos h1, if_neg h2] at hcell
        exact s3 q b hcell
      · rw [if_neg h1, if_neg h2] at hcell
        split_ifs at hcell with h3
        · exact ⟨h3.2, Or.inl h3.1⟩
        · exact s3 q b hcell
  · intro x hx
    rw [symbolStep_final] at hx
    exact s4 x hx
  · intro x hx
    rw [symbolStep_states] at hx
    have hold : x ∈ st.dfa.states → x = "SINK" ∨
        ∃ D ∈ (symbolStep nfa C (FA.set_to_string C) st a).visited,
          FA.set_to_string D = x := by
      intro hx'
      rcases s5 x hx' with e | ⟨D, hD, hDx⟩
      · exact Or.inl e
      · exact Or.inr ⟨D, hg.visited D hD, hDx⟩
    split_ifs at hx with h1
    · exact hold hx
    · rcases mem_usetInsert.mp hx with e | h'
      · exact Or.inl e
      · exact hold h'
  · rw [symbolStep_alphabet]; exact s6
  · rw [symbolStep_start]; exact s7

theorem processSubset_shape {nfa : FA} {C : List String} (hsink : NoSinkName nfa)
    (hC : Reach nfa C) (st : ConvState) (h : Shape nfa st) (hvis : C ∈ st.visited) :
    Shape nfa (processSubset nfa st C) :=
  (processSubset_inv (fun s => Shape nfa s ∧ C ∈ s.visited) nfa C
    (fun s hs => addState_shape hsink hC s hs)
    (fun s hs hf => markFinal_shape hC s hs hf)
    (fun s hs a ha => symbolStep_shape hsink hC s hs a ha) st ⟨h, hvis⟩).1

theorem target_of_ne {nfa : FA} {C : List String} {a : String}
    (h : nextStates nfa.transitions C a ≠ []) :
    target nfa C a = FA.set_to_string (nextStates nfa.transitions C a) := by
  unfold target; rw [if_neg h]

theorem target_of_eq {nfa : FA} {C : List String} {a : String}
    (h : nextStates nfa.transitions C a = []) : target nfa C a = "SINK" := by
  unfold target; rw [if_pos h]

theorem symbolStep_det {nfa : FA} {C : List String} (hinj : NameInjective nfa)
    (hsink : NoSinkName nfa) (hC : Reach nfa C) (st : ConvState) (h : Det nfa st)
    (a : String) : Det nfa (symbolStep nfa C (FA.set_to_string C) st a) := by
  intro D hD b hb
  rw [symbolStep_get]
  by_cases h2 : FA.set_to_string C = FA.set_to_string D ∧ a = b
  · have hCD : C = D := hinj C D hC hD h2.1
    obtain ⟨_, rfl⟩ := h2
    subst hCD
    by_cases h1 : nextStates nfa.transitions C a ≠ []
    · rw [if_pos h1, if_pos ⟨rfl, rfl⟩, target_of_ne h1]
      rcases h C hC a hb with e | e <;> rw [e]
      · exact Or.inr (setInsert_nil _)
      · rw [target_of_ne h1]; exact Or.inr (setInsert_self _)
    · rw [if_neg h1, if_pos ⟨rfl, rfl⟩, target_of_eq (not_not.mp h1)]
      exact Or.inr rfl
  · by_cases h1 : nextStates nfa.transitions C a ≠ []
    · rw [if_pos h1, if_neg h2]
      exact h D hD b hb
    · rw [if_neg h1, if_neg h2, if_neg (fun h3 => hsink D hD h3.1)]
      exact h D hD b hb

theorem processSubset_det {nfa : FA} {C : List String} (hinj : NameInjective nfa)
    (hsink : NoSinkName nfa) (hC : Reach nfa C) (st : ConvState) (h : Det nfa st) :
    Det nfa (processSubset nfa st C) :=
  processSubset_inv (Det nfa) nfa C (fun _ hs => hs) (fun _ hs _ => hs)
    (fun s hs a _ => symbolStep_det hinj hsink hC s hs a) st h

theorem loopIter_inv (P : ConvState → Prop) (nfa : FA)
    (hstep : ∀ dfa C q vis, P ⟨dfa, C :: q, vis⟩ → P (processSubset nfa ⟨dfa, q, vis⟩ C)) :
    ∀ (n : Nat) (st : ConvState), P st → P (loopIter nfa n st)
  | 0, _, h => h
  | _ + 1, ⟨_, [], _⟩, h => h
  | n + 1, ⟨dfa, C :: q, vis⟩, h => loopIter_inv P nfa hstep n _ (hstep dfa C q vis h)

theorem loopInv_step {nfa : FA} (hsink : NoSinkName nfa) (dfa : FA) (C : List String)
    (q vis : List (List String)) (h : LoopInv nfa ⟨dfa, C :: q, vis⟩) :
    LoopInv nfa (processSubset nfa ⟨dfa, q, vis⟩ C) := by
  obtain ⟨hshape, ⟨popped, hb⟩, hstart, hdone⟩ := h
  have hCvis : C ∈ vis := by
    have := hb.1
    simp only at this
    rw [this]; simp
  have hC : Reach nfa C := hb.2.2 C hCvis
  have hg := processSubset_grows nfa ⟨dfa, q, vis⟩ C
  have hb0 : Basic nfa (popped ++ [C]) ⟨dfa, q, vis⟩ :=
    ⟨by have := hb.1; simp only at this; rw [this]; simp, hb.2.1, hb.2.2⟩
  refine ⟨processSubset_shape hsink hC _ hshape hCvis,
    ⟨_, processSubset_basic hC _ _ hb0⟩, hg.visited _ hstart, ?_⟩
  intro D hD hDq
  rcases hg.fresh D hD with hold | hnew
  · by_cases hDC : D = C
    · subst hDC
      exact processSubset_complete nfa _ D (reach_ne_nil hC)
    · have hnq : D ∉ C :: q := by
        intro hmem
        rcases List.mem_cons.mp hmem with e | e
        · exact hDC e
        · exact hDq (hg.queue D e)
      have hcomp : Complete nfa ⟨dfa, q, vis⟩ D := hdone D hold hnq
      exact complete_mono hg hcomp
  · exact absurd hnew hDq

theorem initState_loopInv (nfa : FA) : LoopInv nfa (initState nfa) := by
  refine ⟨⟨?_, ?_, ?_, ?_, ?_, rfl, rfl⟩, ⟨[], initState_basic nfa⟩, ?_, ?_⟩
  · intro a; exact Or.inl rfl
  · intro h; cases h
  · intro q a h; exact absurd rfl h
  · intro x hx; cases hx
  · intro x hx; cases hx
  · exact List.mem_singleton.mpr rfl
  · intro D hD hDq; exact absurd hD hDq

theorem initState_det (nfa : FA) : Det nfa (initState nfa) := by
  intro D _ a _; exact Or.inl rfl

theorem loopIter_loopInv {nfa : FA} (hsink : NoSinkName nfa) (n : Nat) :
    LoopInv nfa (loopIter nfa n (initState nfa)) :=
  loopIter_inv (LoopInv nfa) nfa (loopInv_step hsink) n _ (initState_loopInv nfa)

theorem loopIter_det {nfa : FA} (hinj : NameInjective nfa) (hsink : NoSinkName nfa) (n : Nat) :
    LoopInv nfa (loopIter nfa n (initState nfa)) ∧ Det nfa (loopIter nfa n (initState nfa)) :=
  loopIter_inv (fun s => LoopInv nfa s ∧ Det nfa s) nfa
    (fun dfa C q vis h => by
      obtain ⟨hl, hd⟩ := h
      have hC : Reach nfa C := by
        obtain ⟨_, ⟨popped, hb⟩, _, _⟩ := hl
        apply hb.2.2 C
        have := hb.1
        simp only at this
        rw [this]; simp
      exact ⟨loopInv_step hsink dfa C q vis hl, processSubset_det hinj hsink hC _ hd⟩)
    n _ ⟨initState_loopInv nfa, initState_det nfa⟩

/-! ## Language of the constructed automaton -/

theorem nextStates_nil (t : Trans) (a : String) : nextStates t [] a = [] := rfl

theorem subsetRun_nil (nfa : FA) (w : List String) : subsetRun nfa [] w = [] := by
  induction w with
  | nil => rfl
  | cons a w ih => exact ih

theorem acceptsFrom_iff_subsetRun (nfa : FA) (w : List String) (C : List String) :
    (∃ q ∈ C, FA.acceptsFrom nfa q w = true) ↔ ∃ s ∈ subsetRun nfa C w, s ∈ nfa.final := by
  induction w generalizing C with
  | nil => simp [FA.acceptsFrom, subsetRun]
  | cons a w ih =>
    simp only [subsetRun]
    rw [← ih]
    simp only [FA.acceptsFrom, List.any_eq_true]
    constructor
    · rintro ⟨q, hq, d, hd, hacc⟩
      exact ⟨d, mem_nextStates.mpr ⟨q, hq, hd⟩, hacc⟩
    · rintro ⟨d, hd, hacc⟩
      obtain ⟨q, hq, hd'⟩ := mem_nextStates.mp hd
      exact ⟨q, hq, d, hd', hacc⟩

theorem nfa_accepts_iff (nfa : FA) (w : List String) :
    NFA.accepts nfa w = true ↔ ∃ s ∈ subsetRun nfa [nfa.start] w, s ∈ nfa.final := by
  rw [← acceptsFrom_iff_subsetRun]
  simp [NFA.accepts]

theorem dfa_accepts_iff (dfa : FA) (w : List String) :
    DFA.accepts dfa w = true ↔ RunAccepts dfa dfa.start w := by
  unfold DFA.accepts RunAccepts
  cases DFA.run dfa dfa.start w with
  | none => simp
  | some q => simp

theorem nextStates_of_not_mem_alphabet {nfa : FA} (hv : nfa.Valid) {a : String}
    (ha : a ∉ nfa.alphabet) (C : List String) : nextStates nfa.transitions C a = [] := by
  rw [List.eq_nil_iff_forall_not_mem]
  intro z hz
  obtain ⟨s, _, hzs⟩ := mem_nextStates.mp hz
  obtain ⟨p, hp, _, e, he, hea, _⟩ := transGet_mem_entries hzs
  exact ha (hea ▸ ((hv.2.2.2 p hp).2 e he).1)

theorem run_sink {nfa : FA} {st : ConvState} (hshape : Shape nfa st) (w : List String) :
    DFA.run st.dfa "SINK" w = none ∨ DFA.run st.dfa "SINK" w = some "SINK" := by
  induction w with
  | nil => exact Or.inr rfl
  | cons a w ih =>
    simp only [DFA.run]
    rcases hshape.1 a with e | e <;> rw [e]
    · exact Or.inl rfl
    · exact ih

theorem sink_not_final {nfa : FA} {st : ConvState} (hsink : NoSinkName nfa)
    (hshape : Shape nfa st) : "SINK" ∉ st.dfa.final := by
  intro h
  obtain ⟨D, hD, hname, _⟩ := hshape.2.2.2.1 _ h
  exact hsink D hD hname

theorem not_runAccepts_sink {nfa : FA} {st : ConvState} (hsink : NoSinkName nfa)
    (hshape : Shape nfa st) (w : List String) : ¬ RunAccepts st.dfa "SINK" w := by
  rintro ⟨q', hrun, hfin⟩
  rcases run_sink hshape w with e | e
  · rw [e] at hrun; cases hrun
  · rw [e] at hrun; cases hrun
    exact sink_not_final hsink hshape hfin

/-- The destination set of a processed subset, once the loop has ended. -/
theorem cell_eq_target {nfa : FA} {st : ConvState} (hl : LoopInv nfa st) (hd : Det nfa st)
    (hq : st.queue = []) {D : List String} (hD : D ∈ st.visited) {a : String}
    (ha : a ∈ nfa.alphabet) :
    transGet st.dfa.transitions (FA.set_to_string D) a = [target nfa D a] ∧
      (nextStates nfa.transitions D a ≠ [] → nextStates nfa.transitions D a ∈ st.visited) := by
  obtain ⟨_, ⟨popped, hb⟩, _, hdone⟩ := hl
  have hcomp := hdone D hD (by rw [hq]; simp)
  have hcell := hcomp.2.2 a ha
  refine ⟨?_, hcell.2.1⟩
  rcases hd D (hb.2.2 D hD) a ha with e | e
  · exact absurd e hcell.1
  · exact e

theorem runAccepts_iff_subsetRun {nfa : FA} (hv : nfa.Valid) (hinj : NameInjective nfa)
    (hsink : NoSinkName nfa) {st : ConvState} (hl : LoopInv nfa st) (hd : Det nfa st)
    (hq : st.queue = []) (w : List String) :
    ∀ D ∈ st.visited, (RunAccepts st.dfa (FA.set_to_string D) w ↔
      ∃ s ∈ subsetRun nfa D w, s ∈ nfa.final) := by
  have hreach : ∀ D ∈ st.visited, Reach nfa D := by
    obtain ⟨_, ⟨popped, hb⟩, _, _⟩ := hl
    exact hb.2.2
  induction w with
  | nil =>
    intro D hD
    simp only [RunAccepts, DFA.run, subsetRun, Option.some.injEq, exists_eq_left']
    constructor
    · intro hfin
      obtain ⟨D', hD', hname, hs⟩ := hl.1.2.2.2.1 _ hfin
      rw [hinj D' D hD' (hreach D hD) hname] at hs
      exact hs
    · intro hs
      exact (hl.2.2.2 D hD (by rw [hq]; simp)).2.1 hs
  | cons a w ih =>
    intro D hD
    by_cases ha : a ∈ nfa.alphabet
    · obtain ⟨hcell, hvis⟩ := cell_eq_target hl hd hq hD ha
      have hrun : RunAccepts st.dfa (FA.set_to_string D) (a :: w) ↔
          RunAccepts st.dfa (target nfa D a) w := by
        simp only [RunAccepts, DFA.run, hcell]
      rw [hrun]
      simp only [subsetRun]
      by_cases hne : nextStates nfa.transitions D a ≠ []
      · rw [target_of_ne hne]
        exact ih _ (hvis hne)
      · rw [target_of_eq (not_not.mp hne), not_not.mp hne, subsetRun_nil]
        constructor
        · intro h; exact absurd h (not_runAccepts_sink hsink hl.1 w)
        · rintro ⟨s, hs, _⟩; cases hs
    · have hcell : transGet st.dfa.transitions (FA.set_to_string D) a = [] := by
        by_contra hne
        exact ha (hl.1.2.2.1 _ _ hne).1
      simp only [subsetRun, nextStates_of_not_mem_alphabet hv ha, subsetRun_nil]
      constructor
      · rintro ⟨q', hrun, _⟩
        simp only [DFA.run, hcell] at hrun
        cases hrun
      · rintro ⟨s, hs, _⟩; cases hs

theorem to_dfa_accepts {nfa : FA} (hv : nfa.Valid) (hinj : NameInjective nfa)
    (hsink : NoSinkName nfa) {fuel : Nat} {d : FA} (h : NFA.to_dfa fuel nfa = some d)
    (w : List String) : DFA.accepts d w = NFA.accepts nfa w := by
  obtain ⟨hq, rfl⟩ := to_dfa_eq_some h
  obtain ⟨hl, hd⟩ := loopIter_det hinj hsink fuel
  rw [Bool.eq_iff_iff, dfa_accepts_iff, nfa_accepts_iff, hl.1.2.2.2.2.2.2]
  exact runAccepts_iff_subsetRun hv hinj hsink hl hd hq w [nfa.start] hl.2.2.1

theorem loopIter_of_queue_nil (nfa : FA) (k : Nat) (st : ConvState) (h : st.queue = []) :
    loopIter nfa k st = st := by
  obtain ⟨dfa, queue, visited⟩ := st
  simp only at h
  subst h
  cases k <;> rfl

theorem loopIter_add (nfa : FA) : ∀ (n k : Nat) (st : ConvState),
    loopIter nfa (n + k) st = loopIter nfa k (loopIter nfa n st)
  | 0, k, st => by simp [loopIter]
  | n + 1, k, ⟨dfa, [], vis⟩ => by
    rw [show n + 1 + k = (n + k) + 1 by omega]
    simp only [loopIter]
    exact (loopIter_of_queue_nil nfa k _ rfl).symm
  | n + 1, k, ⟨dfa, C :: q, vis⟩ => by
    rw [show n + 1 + k = (n + k) + 1 by omega]
    simp only [loopIter]
    exact loopIter_add nfa n k _

theorem to_dfa_fuel_mono {nfa : FA} {n m : Nat} {d : FA} (h : NFA.to_dfa n nfa = some d)
    (hnm : n ≤ m) : NFA.to_dfa m nfa = some d := by
  obtain ⟨hq, hd⟩ := to_dfa_eq_some h
  obtain ⟨k, rfl⟩ := Nat.exists_eq_add_of_le hnm
  have : loopIter nfa (n + k) (initState nfa) = loopIter nfa n (initState nfa) := by
    rw [loopIter_add, loopIter_of_queue_nil nfa k _ hq]
  unfold NFA.to_dfa
  rw [this, hq, hd]

theorem to_dfa_fuel_unique {nfa : FA} {n m : Nat} {d d' : FA}
    (h : NFA.to_dfa n nfa = some d) (h' : NFA.to_dfa m nfa = some d') : d = d' := by
  rcases Nat.le_total n m with hnm | hmn
  · have := to_dfa_fuel_mono h hnm
    rw [h'] at this
    exact (Option.some.inj this).symm
  · have := to_dfa_fuel_mono h' hmn
    rw [h] at this
    exact Option.some.inj this

theorem to_dfa_of_valid {nfa : FA} (hv : nfa.Valid) :
    ∃ d, NFA.to_dfa (2 ^ nfa.states.length) nfa = some d :=
  ⟨_, to_dfa_of_queue_nil (loopIter_queue_nil (closed_of_valid hv) _ (le_refl _))⟩

/-! ## Reachable subsets of a concrete automaton -/

theorem reach_mem_of_closed (nfa : FA) (L : List (List String)) (hstart : [nfa.start] ∈ L)
    (hstep : ∀ C ∈ L, ∀ a ∈ nfa.alphabet, nextStates nfa.transitions C a ≠ [] →
      nextStates nfa.transitions C a ∈ L) : ∀ C, Reach nfa C → C ∈ L := by
  intro C hC
  induction hC with
  | start => exact hstart
  | step C a _ ha hne ih => exact hstep C ih a ha hne

theorem sampleNFA_reach : ∀ C, Reach sampleNFA C → C ∈ sampleReach :=
  reach_mem_of_closed sampleNFA sampleReach (by decide) (by decide)

theorem sampleNFA_nameInjective : NameInjective sampleNFA := by
  intro C D hC hD
  have h : ∀ C ∈ sampleReach, ∀ D ∈ sampleReach,
      FA.set_to_string C = FA.set_to_string D → C = D := by decide
  exact h C (sampleNFA_reach C hC) D (sampleNFA_reach D hD)

theorem sampleNFA_noSinkName : NoSinkName sampleNFA := by
  intro C hC
  have h : ∀ C ∈ sampleReach, FA.set_to_string C ≠ "SINK" := by decide
  exact h C (sampleNFA_reach C hC)

/-! ## Language equivalence, totality and the sink -/

/-- C1 fails as stated: the conversion of a model that satisfies invariants 1-3 can accept a
word that the NFA rejects. With the state names `a,b`, `c`, `a`, `b,c` the subsets reached on
`0` and on `1` share the name `{a,b,c}`, and the DFA accepts `1`; with a final NFA state named
`SINK` the DFA accepts `0 0`. -/
theorem accepts_differs_counterexample :
    (commaNFA.Valid ∧ ∃ d, NFA.to_dfa 3 commaNFA = some d ∧
      DFA.accepts d ["1"] = true ∧ NFA.accepts commaNFA ["1"] = false) ∧
    (sinkFinalNFA.Valid ∧ ∃ d, NFA.to_dfa 2 sinkFinalNFA = some d ∧
      DFA.accepts d ["0", "0"] = true ∧ NFA.accepts sinkFinalNFA ["0", "0"] = false) :=
  ⟨⟨by decide, _, rfl, by decide, by decide⟩, ⟨by decide, _, rfl, by decide, by decide⟩⟩

/-- C1, amended: for every NFA model that satisfies invariants 1-3, on whose reachable subsets
`set_to_string` is injective and none of whose reachable subsets is named `SINK`,
`NFA::to_dfa` returns a DFA, and the DFA accepts a word (the empty word included) if and only
if some run of the NFA on the word from its start state ends in an NFA final state. -/
theorem to_dfa_language (nfa : FA) (hv : nfa.Valid) (hinj : NameInjective nfa)
    (hsink : NoSinkName nfa) :
    (∃ d, NFA.to_dfa (2 ^ nfa.states.length) nfa = some d) ∧
    ∀ fuel d, NFA.to_dfa fuel nfa = some d →
      ∀ w, (DFA.accepts d w = true ↔ NFA.accepts nfa w = true) := by
  refine ⟨to_dfa_of_valid hv, ?_⟩
  intro fuel d h w
  rw [to_dfa_accepts hv hinj hsink h w]

/-- The DFA built from the sample NFA accepts exactly the words that the sample NFA accepts. -/
theorem to_dfa_language_witness :
    ∃ d, NFA.to_dfa 4 sampleNFA = some d ∧
      ∀ w, (DFA.accepts d w = true ↔ NFA.accepts sampleNFA w = true) :=
  ⟨_, rfl, (to_dfa_language sampleNFA (by decide) sampleNFA_nameInjective
    sampleNFA_noSinkName).2 4 _ rfl⟩

/-- C6 fails as stated: when the NFA has a state named `SINK`, the state `SINK` of the DFA can
be final, and it can have a destination other than `SINK`. -/
theorem sink_state_counterexample :
    (sinkFinalNFA.Valid ∧ ∃ d, NFA.to_dfa 2 sinkFinalNFA = some d ∧
      "SINK" ∈ d.states ∧ "SINK" ∈ d.final) ∧
    (sinkStepNFA.Valid ∧ ∃ d, NFA.to_dfa 3 sinkStepNFA = some d ∧
      "SINK" ∈ d.states ∧ "0" ∈ d.alphabet ∧
      transGet d.transitions "SINK" "0" ≠ ["SINK"]) :=
  ⟨⟨by decide, _, rfl, by decide, by decide⟩,
    ⟨by decide, _, rfl, by decide, by decide, by decide⟩⟩

/-- C6, amended: for every NFA model that satisfies invariants 1-3 and none of whose reachable
subsets is named `SINK`, `NFA::to_dfa` returns a DFA in which, when the sink is materialised
(`SINK` is a state of the DFA), the destination set of `(SINK, a)` is exactly `{SINK}` for
every symbol `a` of the alphabet, so that a run from `SINK` on any word over the alphabet stays
in `SINK`, and `SINK` is not a final state. -/
theorem to_dfa_sink_absorbing (nfa : FA) (hv : nfa.Valid) (hsink : NoSinkName nfa) :
    (∃ d, NFA.to_dfa (2 ^ nfa.states.length) nfa = some d) ∧
    ∀ fuel d, NFA.to_dfa fuel nfa = some d → "SINK" ∈ d.states →
      (∀ a ∈ d.alphabet, transGet d.transitions "SINK" a = ["SINK"]) ∧
      (∀ w : List String, (∀ a ∈ w, a ∈ d.alphabet) → DFA.run d "SINK" w = some "SINK") ∧
      "SINK" ∉ d.final := by
  refine ⟨to_dfa_of_valid hv, ?_⟩
  intro fuel d h hmem
  obtain ⟨_, rfl⟩ := to_dfa_eq_some h
  have hl := loopIter_loopInv hsink fuel
  have hcell : ∀ a ∈ (loopIter nfa fuel (initState nfa)).dfa.alphabet,
      transGet (loopIter nfa fuel (initState nfa)).dfa.transitions "SINK" a = ["SINK"] := by
    intro a ha
    rw [hl.1.2.2.2.2.2.1] at ha
    rcases hl.1.1 a with e | e
    · exact absurd e (hl.1.2.1 hmem a ha)
    · exact e
  refine ⟨hcell, ?_, sink_not_final hsink hl.1⟩
  intro w hw
  induction w with
  | nil => rfl
  | cons a w ih =>
    simp only [DFA.run, hcell a (hw a (List.mem_cons_self _ _))]
    exact ih (fun b hb => hw b (List.mem_cons_of_mem _ hb))

/-- In the DFA built from the sample NFA the sink is a state, it is not final, and its only
destination on `a` is itself. -/
theorem to_dfa_sink_absorbing_witness :
    ∃ d, NFA.to_dfa 4 sampleNFA = some d ∧ "SINK" ∈ d.states ∧
      transGet d.transitions "SINK" "a" = ["SINK"] ∧ "SINK" ∉ d.final :=
  ⟨_, rfl, by decide,
    ((to_dfa_sink_absorbing sampleNFA (by decide) sampleNFA_noSinkName).2 4 _ rfl
      (by decide)).1 "a" (by decide),
    ((to_dfa_sink_absorbing sampleNFA (by decide) sampleNFA_noSinkName).2 4 _ rfl
      (by decide)).2.2⟩

/-! ## Injectivity of the canonical name -/

theorem intercalate_singleton (a : String) : ",".intercalate [a] = a := rfl

theorem intercalate_cons_cons (a b : String) (l : List String) :
    ",".intercalate (a :: b :: l) = a ++ "," ++ ",".intercalate (b :: l) := by
  simp only [String.intercalate, String.intercalate.go]
  exact intercalate_go_append (a ++ ",") b "," l

theorem split_at_comma : ∀ (u v x y : List Char), ',' ∉ u → ',' ∉ v →
    u ++ ',' :: x = v ++ ',' :: y → u = v ∧ x = y
  | [], [], _, _, _, _, h => by simpa using h
  | [], c :: v, _, _, _, hv, h => by
    simp only [List.nil_append, List.cons_append, List.cons.injEq] at h
    exact absurd (h.1 ▸ List.mem_cons_self _ _) hv
  | c :: u, [], _, _, hu, _, h => by
    simp only [List.nil_append, List.cons_append, List.cons.injEq] at h
    exact absurd (h.1 ▸ List.mem_cons_self _ _) hu
  | c :: u, c' :: v, x, y, hu, hv, h => by
    simp only [List.cons_append, List.cons.injEq] at h
    obtain ⟨h1, h2⟩ := split_at_comma u v x y
      (fun hm => hu (List.mem_cons_of_mem _ hm)) (fun hm => hv (List.mem_cons_of_mem _ hm)) h.2
    exact ⟨by rw [h.1, h1], h2⟩

theorem intercalate_injective : ∀ (l₁ l₂ : List String), l₁ ≠ [] → l₂ ≠ [] →
    (∀ s ∈ l₁, ',' ∉ s.data) → (∀ s ∈ l₂, ',' ∉ s.data) →
    (",".intercalate l₁).data = (",".intercalate l₂).data → l₁ = l₂
  | [], _, h, _, _, _, _ => absurd rfl h
  | _ :: _, [], _, h, _, _, _ => absurd rfl h
  | [a], [b], _, _, _, _, h => by
    rw [intercalate_singleton, intercalate_singleton] at h
    rw [String.ext h]
  | [a], b :: c :: l, _, _, h1, _, h => by
    rw [intercalate_singleton, intercalate_cons_cons] at h
    have : ',' ∈ a.data := by rw [h]; simp [String.data_append]
    exact absurd this (h1 a (List.mem_cons_self _ _))
  | a :: c :: l, [b], _, _, _, h2, h => by
    rw [intercalate_singleton, intercalate_cons_cons] at h
    have : ',' ∈ b.data := by rw [← h]; simp [String.data_append]
    exact absurd this (h2 b (List.mem_cons_self _ _))
  | a :: a' :: l, b :: b' :: l', _, _, h1, h2, h => by
    rw [intercalate_cons_cons, intercalate_cons_cons] at h
    simp only [String.data_append, List.append_assoc] at h
    simp only [List.singleton_append] at h
    obtain ⟨hab, hrest⟩ := split_at_comma _ _ _ _ (h1 a (List.mem_cons_self _ _))
      (h2 b (List.mem_cons_self _ _)) h
    have htl := intercalate_injective (a' :: l) (b' :: l') (by simp) (by simp)
      (fun s hs => h1 s (List.mem_cons_of_mem _ hs))
      (fun s hs => h2 s (List.mem_cons_of_mem _ hs)) hrest
    rw [String.ext hab, htl]

theorem set_to_string_two_head (a b : String) (l : List String) :
    (FA.set_to_string (a :: b :: l)).data.head? = some '{' := by
  rw [set_to_string_two]
  simp [String.data_append]

theorem set_to_string_two_comma (a b : String) (l : List String) :
    ',' ∈ (FA.set_to_string (a :: b :: l)).data := by
  rw [set_to_string_two, intercalate_cons_cons]
  simp [String.data_append]

theorem name_injective_of_clean : ∀ (C D : List String), C ≠ [] → D ≠ [] →
    (∀ s ∈ C, CleanName s) → (∀ s ∈ D, CleanName s) →
    FA.set_to_string C = FA.set_to_string D → C = D
  | [], _, h, _, _, _, _ => absurd rfl h
  | _ :: _, [], _, h, _, _, _ => absurd rfl h
  | [a], [b], _, _, _, _, h => by
    have : a = b := h
    rw [this]
  | [a], b :: c :: l, _, _, h1, _, h => by
    have ha : FA.set_to_string [a] = a := rfl
    have := set_to_string_two_comma b c l
    rw [← h, ha] at this
    exact absurd this (h1 a (List.mem_cons_self _ _))
  | a :: c :: l, [b], _, _, _, h2, h => by
    have hb : FA.set_to_string [b] = b := rfl
    have := set_to_string_two_comma a c l
    rw [h, hb] at this
    exact absurd this (h2 b (List.mem_cons_self _ _))
  | a :: a' :: l, b :: b' :: l', hC, hD, h1, h2, h => by
    rw [set_to_string_two, set_to_string_two] at h
    have hdata := congrArg String.data h
    simp only [String.data_append, List.append_assoc] at hdata
    have hdata' := List.append_cancel_right (List.append_cancel_left hdata)
    exact intercalate_injective _ _ hC hD h1 h2 hdata'

/-- C8 fails as stated: the model with the state names `a,b`, `c`, `a` and `b,c` satisfies
invariants 1-3, and the two distinct subsets that its conversion visits after the start subset
have the same `set_to_string` name. -/
theorem set_to_string_collision :
    commaNFA.Valid ∧
    ∃ C D, Reach commaNFA C ∧ Reach commaNFA D ∧
      C ∈ (loopIter commaNFA 3 (initState commaNFA)).visited ∧
      D ∈ (loopIter commaNFA 3 (initState commaNFA)).visited ∧
      C ≠ D ∧ FA.set_to_string C = FA.set_to_string D :=
  ⟨by decide, nextStates commaNFA.transitions [commaNFA.start] "0",
    nextStates commaNFA.transitions [commaNFA.start] "1",
    Reach.step _ _ Reach.start (by decide) (by decide),
    Reach.step _ _ Reach.start (by decide) (by decide),
    by decide, by decide, by decide, by decide⟩

/-- C8, amended: for every NFA model that satisfies invariants 1-3 and whose state names hold
no comma, any two distinct subsets that `NFA::to_dfa` reaches from the start subset have
different `set_to_string` names. -/
theorem set_to_string_injective (nfa : FA) (hv : nfa.Valid)
    (hclean : ∀ s ∈ nfa.states, CleanName s) :
    ∀ C D, Reach nfa C → Reach nfa D → C ≠ D → FA.set_to_string C ≠ FA.set_to_string D := by
  intro C D hC hD hne heq
  have hsub := closed_of_valid hv
  exact hne (name_injective_of_clean C D (reach_ne_nil hC) (reach_ne_nil hD)
    (fun s hs => hclean s (reach_subset hsub hC s hs))
    (fun s hs => hclean s (reach_subset hsub hD s hs)) heq)

/-- In the NFA with the states `{x}` and `y`, whose names hold no comma, the start subset and
its successor on `a` have different names. -/
theorem set_to_string_injective_witness :
    FA.set_to_string [braceNFA.start] ≠
      FA.set_to_string (nextStates braceNFA.transitions [braceNFA.start] "a") :=
  set_to_string_injective braceNFA (by decide) (by decide) _ _ Reach.start
    (Reach.step _ _ Reach.start (by decide) (by decide)) (by decide)

/-! ## Progress of the loop without conditions on the names -/

theorem progress_step {nfa : FA} (dfa : FA) (C : List String) (q vis : List (List String))
    (h : Progress nfa ⟨dfa, C :: q, vis⟩) :
    Progress nfa (processSubset nfa ⟨dfa, q, vis⟩ C) := by
  obtain ⟨⟨popped, hb⟩, hstart, hdone⟩ := h
  have hCvis : C ∈ vis := by
    have := hb.1
    simp only at this
    rw [this]; simp
  have hC : Reach nfa C := hb.2.2 C hCvis
  have hg := processSubset_grows nfa ⟨dfa, q, vis⟩ C
  have hb0 : Basic nfa (popped ++ [C]) ⟨dfa, q, vis⟩ :=
    ⟨by have := hb.1; simp only at this; rw [this]; simp, hb.2.1, hb.2.2⟩
  refine ⟨⟨_, processSubset_basic hC _ _ hb0⟩, hg.visited _ hstart, ?_⟩
  intro D hD hDq
  rcases hg.fresh D hD with hold | hnew
  · by_cases hDC : D = C
    · subst hDC
      exact processSubset_complete nfa _ D (reach_ne_nil hC)
    · have hnq : D ∉ C :: q := by
        intro hmem
        rcases List.mem_cons.mp hmem with e | e
        · exact hDC e
        · exact hDq (hg.queue D e)
      exact complete_mono hg (hdone D hold hnq)
  · exact absurd hnew hDq

theorem initState_progress (nfa : FA) : Progress nfa (initState nfa) :=
  ⟨⟨[], initState_basic nfa⟩, List.mem_singleton.mpr rfl,
    fun _ hD hDq => absurd hD hDq⟩

theorem loopIter_progress (nfa : FA) (n : Nat) :
    Progress nfa (loopIter nfa n (initState nfa)) :=
  loopIter_inv (Progress nfa) nfa progress_step n _ (initState_progress nfa)

theorem progress_visited_reach {nfa : FA} {st : ConvState} (hp : Progress nfa st)
    {D : List String} (hD : D ∈ st.visited) : Reach nfa D := by
  obtain ⟨⟨popped, hb⟩, _, _⟩ := hp
  exact hb.2.2 D hD

/-- When the loop has ended, every reachable subset has been visited and processed. -/
theorem reach_visited {nfa : FA} {st : ConvState} (hp : Progress nfa st)
    (hq : st.queue = []) : ∀ C, Reach nfa C → C ∈ st.visited := by
  intro C hC
  induction hC with
  | start => exact hp.2.1
  | step C a _ ha hne ih =>
    exact ((hp.2.2 C ih (by rw [hq]; simp)).2.2 a ha).2.1 hne

theorem reach_complete {nfa : FA} {st : ConvState} (hp : Progress nfa st)
    (hq : st.queue = []) {C : List String} (hC : Reach nfa C) : Complete nfa st C :=
  hp.2.2 C (reach_visited hp hq C hC) (by rw [hq]; simp)

/-! ## The conditional characterisations -/

/-- C16: for every NFA model that satisfies invariants 1-3, on whose reachable subsets
`set_to_string` is injective and none of whose reachable subsets is named `SINK`,
`NFA::to_dfa` returns a DFA, and for every word over the alphabet, the empty word included,
the DFA accepts the word if and only if the NFA accepts it. -/
theorem to_dfa_language_conditional (nfa : FA) (hv : nfa.Valid) (hinj : NameInjective nfa)
    (hsink : NoSinkName nfa) :
    (∃ d, NFA.to_dfa (2 ^ nfa.states.length) nfa = some d) ∧
    ∀ fuel d, NFA.to_dfa fuel nfa = some d →
      ∀ w : List String, (∀ a ∈ w, a ∈ nfa.alphabet) →
        DFA.accepts d w = NFA.accepts nfa w :=
  ⟨to_dfa_of_valid hv, fun _ _ h w _ => to_dfa_accepts hv hinj hsink h w⟩

/-- The DFA built from the sample NFA and the sample NFA agree on the empty word and on the
word `a b`. -/
theorem to_dfa_language_conditional_witness :
    ∃ d, NFA.to_dfa 4 sampleNFA = some d ∧
      DFA.accepts d [] = NFA.accepts sampleNFA [] ∧
      DFA.accepts d ["a", "b"] = NFA.accepts sampleNFA ["a", "b"] :=
  ⟨_, rfl,
    (to_dfa_language_conditional sampleNFA (by decide) sampleNFA_nameInjective
      sampleNFA_noSinkName).2 4 _ rfl [] (by decide),
    (to_dfa_language_conditional sampleNFA (by decide) sampleNFA_nameInjective
      sampleNFA_noSinkName).2 4 _ rfl ["a", "b"] (by decide)⟩

theorem symbolLoop_det {nfa : FA} {C : List String} (hinj : NameInjective nfa)
    (hsink : NoSinkName nfa) (hC : Reach nfa C) (st : ConvState) (h : Det nfa st) :
    Det nfa (nfa.alphabet.foldl (symbolStep nfa C (FA.set_to_string C)) st) :=
  foldl_inv (Det nfa) _ nfa.alphabet
    (fun s hs a _ => symbolStep_det hinj hsink hC s hs a) st h

/-- C17: for every NFA model that satisfies invariants 1-3, on whose reachable subsets
`set_to_string` is injective and none of whose reachable subsets is named `SINK`, in the DFA
that `NFA::to_dfa` returns, for every processed subset `C` (the processed subsets are the
reachable ones) and every symbol `a` of the alphabet, the destination set of
`(set_to_string C, a)` is exactly `{set_to_string next}` when `next`, the union of the
destinations of the members of `C` on `a`, is non-empty, and exactly `{SINK}` when it is empty.
Running the loop over the alphabet for `C` once more, as the nested loops do for every further
member of `C`, leaves this destination set as it is. -/
theorem to_dfa_destinations (nfa : FA) (hv : nfa.Valid) (hinj : NameInjective nfa)
    (hsink : NoSinkName nfa) :
    (∃ d, NFA.to_dfa (2 ^ nfa.states.length) nfa = some d) ∧
    ∀ fuel d, NFA.to_dfa fuel nfa = some d →
      (∀ C, Reach nfa C ↔ C ∈ (loopIter nfa fuel (initState nfa)).visited) ∧
      ∀ C, Reach nfa C → ∀ a ∈ nfa.alphabet,
        (nextStates nfa.transitions C a ≠ [] →
          transGet d.transitions (FA.set_to_string C) a =
            [FA.set_to_string (nextStates nfa.transitions C a)]) ∧
        (nextStates nfa.transitions C a = [] →
          transGet d.transitions (FA.set_to_string C) a = ["SINK"]) ∧
        transGet (nfa.alphabet.foldl (symbolStep nfa C (FA.set_to_string C))
            (loopIter nfa fuel (initState nfa))).dfa.transitions (FA.set_to_string C) a =
          transGet d.transitions (FA.set_to_string C) a := by
  refine ⟨to_dfa_of_valid hv, ?_⟩
  intro fuel d h
  obtain ⟨hq, rfl⟩ := to_dfa_eq_some h
  obtain ⟨hl, hd⟩ := loopIter_det hinj hsink fuel
  have hp : Progress nfa (loopIter nfa fuel (initState nfa)) := hl.2
  refine ⟨fun C => ⟨reach_visited hp hq C, progress_visited_reach hp⟩, ?_⟩
  intro C hC a ha
  have hcell := (cell_eq_target hl hd hq (reach_visited hp hq C hC) ha).1
  refine ⟨?_, ?_, ?_⟩
  · intro hne; rw [hcell, target_of_ne hne]
  · intro he; rw [hcell, target_of_eq he]
  · have hd' := symbolLoop_det hinj hsink hC _ hd
    have hg := symbolLoop_grows nfa C (FA.set_to_string C) nfa.alphabet
      (loopIter nfa fuel (initState nfa))
    rcases hd' C hC a ha with e | e
    · exact absurd e (hg.cells _ _ (by rw [hcell]; simp))
    · rw [e, hcell]

/-- In the DFA built from the sample NFA the subset `{q0}` moves on `a` to the state named
`{q0,q1}` and on `b`, where it has no successor, to `SINK`. -/
theorem to_dfa_destinations_witness :
    ∃ d, NFA.to_dfa 4 sampleNFA = some d ∧
      transGet d.transitions "q0" "a" = ["\x7bq0,q1\x7d"] ∧
      transGet d.transitions "q0" "b" = ["SINK"] :=
  ⟨_, rfl,
    (((to_dfa_destinations sampleNFA (by decide) sampleNFA_nameInjective
      sampleNFA_noSinkName).2 4 _ rfl).2 ["q0"] Reach.start "a" (by decide)).1 (by decide),
    (((to_dfa_destinations sampleNFA (by decide) sampleNFA_nameInjective
      sampleNFA_noSinkName).2 4 _ rfl).2 ["q0"] Reach.start "b" (by decide)).2.1 (by decide)⟩

/-! ## The entries of the transition map -/

theorem mapUpdate_forall {β : Type} (P : String → β → Prop) (dflt : β) (f : β → β)
    (m : List (String × β)) (k : String) (hm : ∀ p ∈ m, P p.1 p.2)
    (hk : ∀ v, (v = dflt ∨ P k v) → P k (f v)) :
    ∀ p ∈ mapUpdate dflt f m k, P p.1 p.2 := by
  induction m with
  | nil =>
    intro p hp
    simp only [mapUpdate, List.mem_singleton] at hp
    subst hp
    exact hk dflt (Or.inl rfl)
  | cons p0 m ih =>
    obtain ⟨k0, v⟩ := p0
    intro p hp
    simp only [mapUpdate] at hp
    split_ifs at hp with h0
    · rcases List.mem_cons.mp hp with rfl | h
      · subst h0
        exact hk v (Or.inr (hm (k0, v) (List.mem_cons_self _ _)))
      · exact hm p (List.mem_cons_of_mem _ h)
    · rcases List.mem_cons.mp hp with rfl | h
      · exact hm (k0, v) (List.mem_cons_self _ _)
      · exact ih (fun p hp => hm p (List.mem_cons_of_mem _ hp)) p h

theorem transUpdate_entries (S A D : String → Prop) (t : Trans) (q a : String)
    (f : List String → List String)
    (ht : ∀ p ∈ t, S p.1 ∧ ∀ e ∈ p.2, A e.1 ∧ ∀ d ∈ e.2, D d)
    (hq : S q) (ha : A a) (hf : ∀ ds, (∀ d ∈ ds, D d) → ∀ d ∈ f ds, D d) :
    ∀ p ∈ transUpdate t q a f, S p.1 ∧ ∀ e ∈ p.2, A e.1 ∧ ∀ d ∈ e.2, D d := by
  unfold transUpdate
  refine mapUpdate_forall
    (fun (k : String) (inner : List (String × List String)) =>
      S k ∧ ∀ e ∈ inner, A e.1 ∧ ∀ d ∈ e.2, D d) [] _ t q ht ?_
  intro inner hinner
  refine ⟨hq, ?_⟩
  refine mapUpdate_forall (fun (k : String) (ds : List String) => A k ∧ ∀ d ∈ ds, D d)
    [] f inner a ?_ ?_
  · rcases hinner with rfl | h
    · intro e he; cases he
    · exact h.2
  · intro ds hds
    refine ⟨ha, hf ds ?_⟩
    rcases hds with rfl | h
    · intro d hd; cases hd
    · exact h.2

theorem sinkLoops_entries (S A D : String → Prop) (L : List String) (t : Trans)
    (ht : ∀ p ∈ t, S p.1 ∧ ∀ e ∈ p.2, A e.1 ∧ ∀ d ∈ e.2, D d)
    (hS : S "SINK") (hD : D "SINK") (hL : ∀ b ∈ L, A b) :
    ∀ p ∈ L.foldl (fun t b => transUpdate t "SINK" b (setInsert "SINK")) t,
      S p.1 ∧ ∀ e ∈ p.2, A e.1 ∧ ∀ d ∈ e.2, D d := by
  induction L generalizing t with
  | nil => exact ht
  | cons b L ih =>
    rw [List.foldl_cons]
    apply ih _ _ (fun c hc => hL c (List.mem_cons_of_mem _ hc))
    apply transUpdate_entries S A D t _ _ _ ht hS (hL b (List.mem_cons_self _ _))
    intro ds hds d hd
    rcases mem_setInsert.mp hd with rfl | h
    · exact hD
    · exact hds d h

theorem symbolStep_entries (S A D : String → Prop) (nfa : FA) (C : List String)
    (cur : String) (st : ConvState) (a : String)
    (ht : ∀ p ∈ st.dfa.transitions, S p.1 ∧ ∀ e ∈ p.2, A e.1 ∧ ∀ d ∈ e.2, D d)
    (hcur : S cur) (ha : A a) (hA : ∀ b ∈ nfa.alphabet, A b)
    (hsink : nextStates nfa.transitions C a = [] → S "SINK" ∧ D "SINK")
    (hnext : nextStates nfa.transitions C a ≠ [] →
      D (FA.set_to_string (nextStates nfa.transitions C a))) :
    ∀ p ∈ (symbolStep nfa C cur st a).dfa.transitions,
      S p.1 ∧ ∀ e ∈ p.2, A e.1 ∧ ∀ d ∈ e.2, D d := by
  have hins : nextStates nfa.transitions C a ≠ [] →
      ∀ p ∈ transUpdate st.dfa.transitions cur a
        (setInsert (FA.set_to_string (nextStates nfa.transitions C a))),
      S p.1 ∧ ∀ e ∈ p.2, A e.1 ∧ ∀ d ∈ e.2, D d := by
    intro hne
    apply transUpdate_entries S A D _ _ _ _ ht hcur ha
    intro ds hds d hd
    rcases mem_setInsert.mp hd with rfl | h
    · exact hnext hne
    · exact hds d h
  unfold symbolStep
  by_cases h1 : nextStates nfa.transitions C a ≠ []
  · rw [if_pos h1]
    by_cases h2 : nextStates nfa.transitions C a ∈ st.visited
    · rw [if_pos h2]; exact hins h1
    · rw [if_neg h2]; exact hins h1
  · rw [if_neg h1]
    obtain ⟨hS, hD⟩ := hsink (not_not.mp h1)
    simp only [sinkBranch]
    apply transUpdate_entries S A D _ _ _ _
      (sinkLoops_entries S A D _ _ ht hS hD hA) hcur ha
    intro ds _ d hd
    rw [List.mem_singleton.mp hd]
    exact hD

theorem nodup_usetInsert {x : String} {l : List String} (h : l.Nodup) :
    (usetInsert x l).Nodup := by
  unfold usetInsert
  split_ifs with hx
  · exact h
  · rw [List.nodup_append]
    exact ⟨h, List.nodup_singleton _, fun y hy hy' => hx (List.mem_singleton.mp hy' ▸ hy)⟩

/-! ## Invariants that hold for every model -/

theorem processSubset_inv2 (P0 P : ConvState → Prop) (nfa : FA) (C : List String)
    (hstates : ∀ s, P0 s →
      P { s with dfa := { s.dfa with states := usetInsert (FA.set_to_string C) s.dfa.states } })
    (hfinal : ∀ s, P s → (∃ x ∈ C, x ∈ nfa.final) →
      P { s with dfa := { s.dfa with final := usetInsert (FA.set_to_string C) s.dfa.final } })
    (hsym : ∀ s, P s → ∀ a ∈ nfa.alphabet, P (symbolStep nfa C (FA.set_to_string C) s a))
    (st : ConvState) (h : P0 st) : P (processSubset nfa st C) := by
  unfold processSubset
  apply foldl_inv P _ C _ _ (hstates st h)
  intro s hs x hx
  unfold stateStep
  apply foldl_inv P _ nfa.alphabet hsym
  split_ifs with hf
  · exact hfinal s hs ⟨x, hx, hf⟩
  · exact hs

theorem transOk_of_grows {alphabet : List String} {st st' : ConvState} (hg : Grows st st')
    (ht : TransOk alphabet st) :
    ∀ p ∈ st.dfa.transitions, p.1 ∈ st'.dfa.states ∧
      ∀ e ∈ p.2, e.1 ∈ alphabet ∧
        ∀ d ∈ e.2, d ∈ st'.dfa.states ∨ ∃ D ∈ st'.visited, FA.set_to_string D = d := by
  intro p hp
  refine ⟨hg.states _ (ht p hp).1, fun e he => ⟨((ht p hp).2 e he).1, fun d hd => ?_⟩⟩
  rcases ((ht p hp).2 e he).2 d hd with h | ⟨D, hD, hn⟩
  · exact Or.inl (hg.states _ h)
  · exact Or.inr ⟨D, hg.visited _ hD, hn⟩

theorem addState_gen {nfa : FA} {C : List String} (st : ConvState)
    (h : Gen nfa st ∧ C ∈ st.visited) :
    Gen nfa { st with dfa := { st.dfa with
        states := usetInsert (FA.set_to_string C) st.dfa.states } } ∧
      C ∈ st.visited ∧ FA.set_to_string C ∈ usetInsert (FA.set_to_string C) st.dfa.states := by
  obtain ⟨⟨g1, g2, g3, g4, g5, g6, g7⟩, hvis⟩ := h
  refine ⟨⟨g1, ?_, nodup_usetInsert g3, ?_, ?_, g6, g7⟩, hvis, mem_usetInsert.mpr (Or.inl rfl)⟩
  · intro x hx
    rcases mem_usetInsert.mp hx with e | h'
    · exact Or.inl ⟨C, hvis, e.symm⟩
    · exact g2 x h'
  · intro x hx
    exact mem_usetInsert.mpr (Or.inr (g4 x hx))
  · have := transOk_of_grows (addState_grows st (FA.set_to_string C)) g5
    exact this

theorem markFinal_gen {nfa : FA} {C : List String} (hC : Reach nfa C) (st : ConvState)
    (h : Gen nfa st ∧ C ∈ st.visited ∧ FA.set_to_string C ∈ st.dfa.states)
    (hf : ∃ x ∈ C, x ∈ nfa.final) :
    Gen nfa { st with dfa := { st.dfa with
        final := usetInsert (FA.set_to_string C) st.dfa.final } } ∧
      C ∈ st.visited ∧ FA.set_to_string C ∈ st.dfa.states := by
  obtain ⟨⟨g1, g2, g3, g4, g5, g6, g7⟩, hvis, hreg⟩ := h
  refine ⟨⟨?_, g2, g3, ?_, g5, g6, g7⟩, hvis, hreg⟩
  · intro x hx
    rcases mem_usetInsert.mp hx with e | h'
    · exact ⟨C, hC, e.symm, hf⟩
    · exact g1 x h'
  · intro x hx
    rcases mem_usetInsert.mp hx with e | h'
    · rw [e]; exact hreg
    · exact g4 x h'

theorem symbolStep_gen {nfa : FA} {C : List String} (hC : Reach nfa C) (st : ConvState)
    (h : Gen nfa st ∧ C ∈ st.visited ∧ FA.set_to_string C ∈ st.dfa.states) (a : String)
    (ha : a ∈ nfa.alphabet) :
    Gen nfa (symbolStep nfa C (FA.set_to_string C) st a) ∧
      C ∈ (symbolStep nfa C (FA.set_to_string C) st a).visited ∧
      FA.set_to_string C ∈ (symbolStep nfa C (FA.set_to_string C) st a).dfa.states := by
  obtain ⟨⟨g1, g2, g3, g4, g5, g6, g7⟩, hvis, hreg⟩ := h
  have hg := symbolStep_grows nfa C (FA.set_to_string C) st a
  have hcell := symbolStep_cellDone nfa C st a
  refine ⟨⟨?_, ?_, ?_, ?_, ?_, ?_, ?_⟩, hg.visited C hvis, hg.states _ hreg⟩
  · intro x hx
    rw [symbolStep_final] at hx
    exact g1 x hx
  · intro x hx
    rw [symbolStep_states] at hx
    have hold : x ∈ st.dfa.states →
        (∃ D ∈ (symbolStep nfa C (FA.set_to_string C) st a).visited,
          FA.set_to_string D = x) ∨ (x = "SINK" ∧ SinkNeeded nfa) := by
      intro hx'
      rcases g2 x hx' with ⟨D, hD, hDx⟩ | e
      · exact Or.inl ⟨D, hg.visited D hD, hDx⟩
      · exact Or.inr e
    split_ifs at hx with h1
    · exact hold hx
    · rcases mem_usetInsert.mp hx with e | h'
      · exact Or.inr ⟨e, C, hC, a, ha, not_not.mp h1⟩
      · exact hold h'
  · rw [symbolStep_states]
    split_ifs
    · exact g3
    · exact nodup_usetInsert g3
  · intro x hx
    rw [symbolStep_final] at hx
    exact hg.states _ (g4 x hx)
  · exact symbolStep_entries
      (fun x => x ∈ (symbolStep nfa C (FA.set_to_string C) st a).dfa.states)
      (fun b => b ∈ nfa.alphabet)
      (fun d => d ∈ (symbolStep nfa C (FA.set_to_string C) st a).dfa.states ∨
        ∃ D ∈ (symbolStep nfa C (FA.set_to_string C) st a).visited, FA.set_to_string D = d)
      nfa C _ st a (transOk_of_grows hg g5) (hg.states _ hreg) ha (fun _ hb => hb)
      (fun he => ⟨(hcell.2.2 he).1, Or.inl (hcell.2.2 he).1⟩)
      (fun hne => Or.inr ⟨_, hcell.2.1 hne, rfl⟩)
  · rw [symbolStep_alphabet]; exact g6
  · rw [symbolStep_start]; exact g7

theorem processSubset_gen {nfa : FA} {C : List String} (hC : Reach nfa C) (st : ConvState)
    (h : Gen nfa st) (hvis : C ∈ st.visited) : Gen nfa (processSubset nfa st C) :=
  (processSubset_inv2 (fun s => Gen nfa s ∧ C ∈ s.visited)
    (fun s => Gen nfa s ∧ C ∈ s.visited ∧ FA.set_to_string C ∈ s.dfa.states) nfa C
    (fun s hs => addState_gen s hs)
    (fun s hs hf => markFinal_gen hC s hs hf)
    (fun s hs a ha => symbolStep_gen hC s hs a ha) st ⟨h, hvis⟩).1

theorem initState_gen (nfa : FA) : Gen nfa (initState nfa) := by
  refine ⟨?_, ?_, List.nodup_nil, ?_, ?_, rfl, rfl⟩
  · intro x hx; cases hx
  · intro x hx; cases hx
  · intro x hx; cases hx
  · intro p hp; cases hp

theorem loopIter_gen (nfa : FA) (n : Nat) :
    Gen nfa (loopIter nfa n (initState nfa)) ∧ Progress nfa (loopIter nfa n (initState nfa)) :=
  loopIter_inv (fun s => Gen nfa s ∧ Progress nfa s) nfa
    (fun dfa C q vis h => by
      obtain ⟨hgen, hp⟩ := h
      have hCvis : C ∈ vis := by
        obtain ⟨⟨popped, hb⟩, _, _⟩ := hp
        have := hb.1
        simp only at this
        rw [this]; simp
      have hC : Reach nfa C := progress_visited_reach hp hCvis
      exact ⟨processSubset_gen hC ⟨dfa, q, vis⟩ hgen hCvis, progress_step dfa C q vis hp⟩)
    n _ ⟨initState_gen nfa, initState_progress nfa⟩

/-! ## States, final states and validity of the constructed automaton -/

/-- C18: for every NFA model that satisfies invariants 1-3, `NFA::to_dfa` returns a DFA that
satisfies invariants 1-3 itself, so that `FA::validate_automaton` succeeds on it: its alphabet
and its start state are those of the NFA, the start state is a member of its states, every
final state is a member of its states, and every entry of its transition map has its source
and its destinations among its states and its symbol in the alphabet. -/
theorem to_dfa_valid (nfa : FA) (hv : nfa.Valid) :
    (∃ d, NFA.to_dfa (2 ^ nfa.states.length) nfa = some d) ∧
    ∀ fuel d, NFA.to_dfa fuel nfa = some d →
      d.alphabet = nfa.alphabet ∧ d.start = nfa.start ∧ d.start ∈ d.states ∧
      (∀ f ∈ d.final, f ∈ d.states) ∧
      (∀ p ∈ d.transitions, p.1 ∈ d.states ∧
        ∀ e ∈ p.2, e.1 ∈ d.alphabet ∧ ∀ x ∈ e.2, x ∈ d.states) ∧
      FA.validate_automaton d = Except.ok () := by
  refine ⟨to_dfa_of_valid hv, ?_⟩
  intro fuel d h
  obtain ⟨hq, rfl⟩ := to_dfa_eq_some h
  obtain ⟨⟨_, _, _, g4, g5, g6, g7⟩, hp⟩ := loopIter_gen nfa fuel
  have hreg : ∀ D ∈ (loopIter nfa fuel (initState nfa)).visited,
      FA.set_to_string D ∈ (loopIter nfa fuel (initState nfa)).dfa.states :=
    fun D hD => (hp.2.2 D hD (by rw [hq]; simp)).1
  have hstart : (loopIter nfa fuel (initState nfa)).dfa.start ∈
      (loopIter nfa fuel (initState nfa)).dfa.states := by
    rw [g7]
    exact hreg [nfa.start] hp.2.1
  have htrans : ∀ p ∈ (loopIter nfa fuel (initState nfa)).dfa.transitions,
      p.1 ∈ (loopIter nfa fuel (initState nfa)).dfa.states ∧
      ∀ e ∈ p.2, e.1 ∈ (loopIter nfa fuel (initState nfa)).dfa.alphabet ∧
        ∀ x ∈ e.2, x ∈ (loopIter nfa fuel (initState nfa)).dfa.states := by
    intro p hp'
    refine ⟨(g5 p hp').1, fun e he => ⟨?_, fun x hx => ?_⟩⟩
    · rw [g6]; exact ((g5 p hp').2 e he).1
    · rcases ((g5 p hp').2 e he).2 x hx with h' | ⟨D, hD, hn⟩
      · exact h'
      · rw [← hn]; exact hreg D hD
  refine ⟨g6, g7, hstart, g4, htrans, ?_⟩
  rw [validate_ok_iff_valid]
  exact ⟨by rw [g7]; exact hv.1, hstart, g4, htrans⟩

/-- The DFA built from the sample NFA passes the structural validation. -/
theorem to_dfa_valid_witness :
    ∃ d, NFA.to_dfa 4 sampleNFA = some d ∧ FA.validate_automaton d = Except.ok () :=
  ⟨_, rfl, ((to_dfa_valid sampleNFA (by decide)).2 4 _ rfl).2.2.2.2.2⟩

/-- C19: for every NFA model that satisfies invariants 1-3, the final states of the DFA that
`NFA::to_dfa` returns are exactly the canonical names of the reachable subsets that hold at
least one NFA final state. -/
theorem to_dfa_final (nfa : FA) (hv : nfa.Valid) :
    (∃ d, NFA.to_dfa (2 ^ nfa.states.length) nfa = some d) ∧
    ∀ fuel d, NFA.to_dfa fuel nfa = some d →
      ∀ n, n ∈ d.final ↔
        ∃ C, Reach nfa C ∧ n = FA.set_to_string C ∧ ∃ s ∈ C, s ∈ nfa.final := by
  refine ⟨to_dfa_of_valid hv, ?_⟩
  intro fuel d h n
  obtain ⟨hq, rfl⟩ := to_dfa_eq_some h
  obtain ⟨⟨g1, _⟩, hp⟩ := loopIter_gen nfa fuel
  constructor
  · intro hn
    obtain ⟨D, hD, hname, hs⟩ := g1 n hn
    exact ⟨D, hD, hname.symm, hs⟩
  · rintro ⟨C, hC, rfl, hs⟩
    exact (reach_complete hp hq hC).2.1 hs

/-- In the DFA built from the sample NFA the name of the successor of the start subset on `a`,
which holds the final state `q1`, is a final state. -/
theorem to_dfa_final_witness :
    ∃ d, NFA.to_dfa 4 sampleNFA = some d ∧ "\x7bq0,q1\x7d" ∈ d.final :=
  ⟨_, rfl, ((to_dfa_final sampleNFA (by decide)).2 4 _ rfl "\x7bq0,q1\x7d").mpr
    ⟨nextStates sampleNFA.transitions [sampleNFA.start] "a",
      Reach.step _ _ Reach.start (by decide) (by decide), by decide, by decide⟩⟩

/-- C20: for every NFA model that satisfies invariants 1-3, the states of the DFA that
`NFA::to_dfa` returns are the canonical names of the reachable subsets, together with `SINK`
exactly when some reachable subset has an empty successor on some symbol of the alphabet: when
no pair needs the sink no state is added for it, and no state, the sink included, is registered
more than once. -/
theorem to_dfa_states (nfa : FA) (hv : nfa.Valid) :
    (∃ d, NFA.to_dfa (2 ^ nfa.states.length) nfa = some d) ∧
    ∀ fuel d, NFA.to_dfa fuel nfa = some d →
      (∀ x, x ∈ d.states ↔
        (∃ C, Reach nfa C ∧ FA.set_to_string C = x) ∨ (x = "SINK" ∧ SinkNeeded nfa)) ∧
      (¬ SinkNeeded nfa → ∀ x ∈ d.states, ∃ C, Reach nfa C ∧ FA.set_to_string C = x) ∧
      d.states.Nodup ∧ d.states.count "SINK" ≤ 1 := by
  refine ⟨to_dfa_of_valid hv, ?_⟩
  intro fuel d h
  obtain ⟨hq, rfl⟩ := to_dfa_eq_some h
  obtain ⟨⟨_, g2, g3, _⟩, hp⟩ := loopIter_gen nfa fuel
  have hfwd : ∀ x ∈ (loopIter nfa fuel (initState nfa)).dfa.states,
      (∃ C, Reach nfa C ∧ FA.set_to_string C = x) ∨ (x = "SINK" ∧ SinkNeeded nfa) := by
    intro x hx
    rcases g2 x hx with ⟨D, hD, hn⟩ | e
    · exact Or.inl ⟨D, progress_visited_reach hp hD, hn⟩
    · exact Or.inr e
  refine ⟨fun x => ⟨hfwd x, ?_⟩, ?_, g3, List.nodup_iff_count_le_one.mp g3 _⟩
  · rintro (⟨C, hC, rfl⟩ | ⟨rfl, D, hD, a, ha, he⟩)
    · exact (reach_complete hp hq hC).1
    · exact (((reach_complete hp hq hD).2.2 a ha).2.2 he).1
  · intro hno x hx
    rcases hfwd x hx with h' | ⟨_, hs⟩
    · exact h'
    · exact absurd hs hno

/-- In the DFA built from the sample NFA, where the start subset has no successor on `b`,
`SINK` is a state. -/
theorem to_dfa_states_witness :
    ∃ d, NFA.to_dfa 4 sampleNFA = some d ∧ "SINK" ∈ d.states :=
  ⟨_, rfl, (((to_dfa_states sampleNFA (by decide)).2 4 _ rfl).1 "SINK").mpr
    (Or.inr ⟨rfl, [sampleNFA.start], Reach.start, "b", by decide, by decide⟩)⟩

/-! ## Serialization -/

theorem strLe_total (a b : String) : strLt b a = false ∨ strLt a b = false := by
  cases h : strLt b a with
  | false => exact Or.inl rfl
  | true => exact Or.inr (strLt_asymm h)

theorem strLe_trans {a b c : String} (h1 : strLt b a = false) (h2 : strLt c b = false) :
    strLt c a = false := by
  cases h : strLt c a with
  | false => rfl
  | true =>
    cases hab : strLt a b with
    | true => rw [strLt_trans h hab] at h2; cases h2
    | false =>
      have e : a = b := strLt_total hab h1
      rw [e] at h; rw [h] at h2; cases h2

theorem sortStrings_perm (l : List String) : (sortStrings l).Perm l :=
  List.perm_insertionSort _ l

theorem sortStrings_sorted (l : List String) :
    (sortStrings l).Pairwise (fun a b => strLt b a = false) :=
  @List.sorted_insertionSort _ (fun a b => strLt b a = false) _
    ⟨fun a b => strLe_total a b⟩ ⟨fun _ _ _ h1 h2 => strLe_trans h1 h2⟩ l

theorem sortStrings_congr {l₁ l₂ : List String} (h : l₁.Perm l₂) :
    sortStrings l₁ = sortStrings l₂ :=
  @List.eq_of_perm_of_sorted _ (fun a b => strLt b a = false)
    ⟨fun _ _ h1 h2 => strLt_total h2 h1⟩ _ _
    (((sortStrings_perm l₁).trans h).trans (sortStrings_perm l₂).symm)
    (sortStrings_sorted l₁) (sortStrings_sorted l₂)

theorem printDests_eq_map (q a : String) (ds : List String) :
    printDests q a ds = ds.map (fun d => q ++ " " ++ a ++ " " ++ d) := by
  induction ds with
  | nil => rfl
  | cons d ds ih => simp [printDests, ih]

theorem printSymbols_eq (t : Trans) (q : String) (A : List String) :
    printSymbols t q A =
      A.flatMap (fun a => (transGet t q a).map (fun d => q ++ " " ++ a ++ " " ++ d)) := by
  induction A with
  | nil => rfl
  | cons a A ih => simp [printSymbols, ih, printDests_eq_map]

theorem printStates_eq (t : Trans) (A S : List String) :
    printStates t A S =
      S.flatMap (fun q => A.flatMap (fun a =>
        (transGet t q a).map (fun d => q ++ " " ++ a ++ " " ++ d))) := by
  induction S with
  | nil => rfl
  | cons q S ih => simp [printStates, ih, printSymbols_eq]

theorem printStates_congr {t t' : Trans} (h : ∀ q a, transGet t q a = transGet t' q a)
    (A S : List String) : printStates t A S = printStates t' A S := by
  rw [printStates_eq, printStates_eq]
  simp only [h]

/-- C14: the lines that `FA::print` emits are `ALPHABET`, the alphabet in ascending order,
`STATES`, the states in ascending order, `START`, the start state (when one is set), `FINAL`,
the final states in ascending order, `TRANSITIONS`, one line `q a d` for each state `q` in
ascending order, each symbol `a` in ascending order and each destination `d` of `(q, a)`, and
`END`. The sorted sequences are ascending rearrangements of the sets, hence two models with
equal alphabet, states, start state, final states and destination sets print identically,
whatever the order in which their sets were filled. -/
theorem print_canonical (m : FA) :
    FA.print m =
      ["ALPHABET"] ++ sortStrings m.alphabet ++
      ["STATES"] ++ sortStrings m.states ++
      ["START"] ++ (if m.start = "" then [] else [m.start]) ++
      ["FINAL"] ++ sortStrings m.final ++
      ["TRANSITIONS"] ++
      (sortStrings m.states).flatMap (fun q => (sortStrings m.alphabet).flatMap (fun a =>
        (transGet m.transitions q a).map (fun d => q ++ " " ++ a ++ " " ++ d))) ++
      ["END"] ∧
    (∀ l, (sortStrings l).Perm l ∧ (sortStrings l).Pairwise (fun a b => strLt b a = false)) ∧
    (∀ m' : FA, m.alphabet.Perm m'.alphabet → m.states.Perm m'.states →
      m.start = m'.start → m.final.Perm m'.final →
      (∀ q a, transGet m.transitions q a = transGet m'.transitions q a) →
      FA.print m = FA.print m') := by
  refine ⟨?_, fun l => ⟨sortStrings_perm l, sortStrings_sorted l⟩, ?_⟩
  · unfold FA.print
    rw [printStates_eq]
    by_cases h : m.start = "" <;> simp [h]
  · intro m' ha hs hst hf ht
    unfold FA.print
    rw [sortStrings_congr ha, sortStrings_congr hs, sortStrings_congr hf, hst,
      printStates_congr ht]

/-- The sample NFA and the same model with its sets filled in another order print the same
lines. -/
theorem print_canonical_witness : FA.print sampleNFA = FA.print sampleNFAReordered :=
  (print_canonical sampleNFA).2.2 sampleNFAReordered (by decide) (by decide) rfl
    (by decide) (by
      intro q a
      by_cases h0 : "q0" = q
      · subst h0; simp [sampleNFA, sampleNFAReordered, transGet, mapFind]
      · by_cases h1 : "q1" = q
        · subst h1; simp [sampleNFA, sampleNFAReordered, transGet, mapFind]
        · simp [sampleNFA, sampleNFAReordered, transGet, mapFind, h0, h1])

/-! ## The round-trip scenario -/

/-- C12: for the NFA with alphabet `a`, `b`, states `q0`, `q1`, start `q0`, final `q1` and
transitions `q0 a q0`, `q0 a q1`, `q1 b q1`, `NFA::to_dfa` returns the DFA with alphabet `a`,
`b`, states `SINK`, `q0`, `q1`, `{q0,q1}`, start `q0`, which is not final, final states `q1`,
`{q0,q1}`, and exactly the eight transitions of the scenario; its serialization is the
expected text. -/
theorem round_trip_scenario :
    NFA.to_dfa 4 sampleNFA = some sampleDFA ∧
    (∀ fuel d, NFA.to_dfa fuel sampleNFA = some d → d = sampleDFA) ∧
    "q0" ∉ sampleDFA.final ∧
    FA.print sampleDFA =
      ["ALPHABET", "a", "b",
       "STATES", "SINK", "q0", "q1", "\x7bq0,q1\x7d",
       "START", "q0",
       "FINAL", "q1", "\x7bq0,q1\x7d",
       "TRANSITIONS",
       "SINK a SINK", "SINK b SINK",
       "q0 a \x7bq0,q1\x7d", "q0 b SINK",
       "q1 a SINK", "q1 b q1",
       "\x7bq0,q1\x7d a \x7bq0,q1\x7d", "\x7bq0,q1\x7d b q1",
       "END"] := by
  have h : NFA.to_dfa 4 sampleNFA = some sampleDFA := by decide
  exact ⟨h, fun fuel d hd => to_dfa_fuel_unique hd h, by decide, by decide⟩

/-! ## What the determinism check leaves behind -/

theorem dfa_validate_frame (m : FA) :
    (DFA.validate_automaton m).2.alphabet = m.alphabet ∧
    (DFA.validate_automaton m).2.states = m.states ∧
    (DFA.validate_automaton m).2.start = m.start ∧
    (DFA.validate_automaton m).2.final = m.final ∧
    ∀ q a, transGet (DFA.validate_automaton m).2.transitions q a =
      transGet m.transitions q a := by
  unfold DFA.validate_automaton
  cases FA.validate_automaton m with
  | error e => exact ⟨rfl, rfl, rfl, rfl, fun _ _ => rfl⟩
  | ok u => exact ⟨rfl, rfl, rfl, rfl, fun q a => dfaCheckStates_get _ _ _ q a⟩

/-- C13 does not hold of `DFA::validate_automaton`: on the valid model in which `(q1, a)` has
no destination the check fails and leaves the key `a` with an empty destination set in the
symbol map of `q1`, because it reads the map with `operator[]`. The alphabet, the states, the
start state, the final states and the value of every destination set are left as they were, on
every model. -/
theorem dfa_validate_inserts_key :
    missingFA.Valid ∧
    (DFA.validate_automaton missingFA).1 =
      Except.error "State q1 has no transition for symbol a" ∧
    mapFind missingFA.transitions "q1" = some [("b", ["q1"])] ∧
    mapFind (DFA.validate_automaton missingFA).2.transitions "q1" =
      some [("b", ["q1"]), ("a", [])] ∧
    (DFA.validate_automaton missingFA).2.transitions ≠ missingFA.transitions ∧
    ∀ m : FA,
      (DFA.validate_automaton m).2.alphabet = m.alphabet ∧
      (DFA.validate_automaton m).2.states = m.states ∧
      (DFA.validate_automaton m).2.start = m.start ∧
      (DFA.validate_automaton m).2.final = m.final ∧
      ∀ q a, transGet (DFA.validate_automaton m).2.transitions q a =
        transGet m.transitions q a :=
  ⟨by decide, by decide, by decide, by decide, by decide, dfa_validate_frame⟩

/-! ## Parsing -/

theorem readLoop_error (lines : List String) (type : String) (m : FA) (e : ReadFailure)
    (h : readLoop lines type m = Except.error e) : e = ReadFailure.undefinedBehaviour := by
  induction lines generalizing type m with
  | nil => rw [readLoop] at h; cases h
  | cons raw rest ih =>
    rw [readLoop] at h
    by_cases h0 : raw = ""
    · rw [if_pos h0] at h; cases h; rfl
    rw [if_neg h0] at h
    by_cases h1 : trimLast raw = "ALPHABET"
    · rw [if_pos h1] at h; exact ih _ _ h
    rw [if_neg h1] at h
    by_cases h2 : trimLast raw = "STATES"
    · rw [if_pos h2] at h; exact ih _ _ h
    rw [if_neg h2] at h
    by_cases h3 : trimLast raw = "START"
    · rw [if_pos h3] at h; exact ih _ _ h
    rw [if_neg h3] at h
    by_cases h4 : trimLast raw = "FINAL"
    · rw [if_pos h4] at h; exact ih _ _ h
    rw [if_neg h4] at h
    by_cases h5 : trimLast raw = "TRANSITIONS"
    · rw [if_pos h5] at h; exact ih _ _ h
    rw [if_neg h5] at h
    by_cases h6 : trimLast raw = "END"
    · rw [if_pos h6] at h; cases h
    rw [if_neg h6] at h
    by_cases h7 : type = "ALPHABET"
    · rw [if_pos h7] at h; exact ih _ _ h
    rw [if_neg h7] at h
    by_cases h8 : type = "STATES"
    · rw [if_pos h8] at h; exact ih _ _ h
    rw [if_neg h8] at h
    by_cases h9 : type = "START"
    · rw [if_pos h9] at h; exact ih _ _ h
    rw [if_neg h9] at h
    by_cases h10 : type = "FINAL"
    · rw [if_pos h10] at h; exact ih _ _ h
    rw [if_neg h10] at h
    by_cases h11 : type = "TRANSITIONS"
    · rw [if_pos h11] at h
      cases hs : splitTokens (trimLast raw).data [] with
      | nil => rw [hs] at h; cases h; rfl
      | cons t0 l0 =>
        cases l0 with
        | nil => rw [hs] at h; cases h; rfl
        | cons t1 l1 =>
          cases l1 with
          | nil => rw [hs] at h; cases h; rfl
          | cons t2 l2 => rw [hs] at h; exact ih _ _ h
    · rw [if_neg h11] at h; exact ih _ _ h

/-- C15 does not hold: `FA::read` has no check of the number of tokens of a transition line.
On the input whose `TRANSITIONS` section holds the line `q0 a` it indexes the token vector past
its end, which is undefined behaviour, and no format error is thrown. On no input does
`FA::read` throw anything but `File not found` or an error of `FA::validate_automaton`. -/
theorem read_short_line :
    FA.read emptyFA (some shortLineText) = Except.error ReadFailure.undefinedBehaviour ∧
    ∀ (m : FA) (file : Option (List String)) (msg : String),
      FA.read m file = Except.error (ReadFailure.thrown msg) →
      (file = none ∧ msg = "File not found") ∨
        ∃ m', FA.validate_automaton m' = Except.error msg := by
  refine ⟨by rfl, ?_⟩
  intro m file msg h
  unfold FA.read at h
  cases file with
  | none =>
    simp only [Except.error.injEq, ReadFailure.thrown.injEq] at h
    exact Or.inl ⟨rfl, h.symm⟩
  | some lines =>
    simp only at h
    cases hl : readLoop lines "" m with
    | error e =>
      rw [hl] at h
      simp only [Except.error.injEq] at h
      have := readLoop_error _ _ _ _ hl
      rw [h] at this
      cases this
    | ok m' =>
      rw [hl] at h
      simp only at h
      cases hv : FA.validate_automaton m' with
      | error msg' =>
        rw [hv] at h
        simp only [Except.error.injEq, ReadFailure.thrown.injEq] at h
        exact Or.inr ⟨m', by rw [hv, h]⟩
      | ok u => rw [hv] at h; cases h

/-! ## Conversion of a model that is deterministic already -/

theorem transGet_eq_nil_of_entries {t : Trans} {S A : String → Prop}
    (ht : ∀ p ∈ t, S p.1 ∧ ∀ e ∈ p.2, A e.1) {q a : String} (h : ¬ S q ∨ ¬ A a) :
    transGet t q a = [] := by
  rw [List.eq_nil_iff_forall_not_mem]
  intro d hd
  obtain ⟨p, hp, hpq, e, he, hea, _⟩ := transGet_mem_entries hd
  rcases h with h | h
  · exact h (hpq ▸ (ht p hp).1)
  · exact h (hea ▸ (ht p hp).2 e he)

theorem transGet_eq_nil_of_valid {m : FA} (hv : m.Valid) {q a : String}
    (h : q ∉ m.states ∨ a ∉ m.alphabet) : transGet m.transitions q a = [] :=
  transGet_eq_nil_of_entries
    (fun p hp => ⟨(hv.2.2.2 p hp).1, fun e he => ((hv.2.2.2 p hp).2 e he).1⟩) h

theorem stateReach_mem {m : FA} (hv : m.Valid) {q : String} (h : StateReach m q) :
    q ∈ m.states := by
  cases h with
  | start => exact hv.2.1
  | step q a d _ _ hd => exact (closed_of_valid hv).2 q a _ hd

theorem nextStates_singleton {t : Trans} {q a x : String} (h : transGet t q a = [x]) :
    nextStates t [q] a = [x] := by
  simp [nextStates, setInsertRange, h, setInsert]

theorem reach_iff_stateReach {m : FA} (hv : m.Valid)
    (hdet : ∀ q ∈ m.states, ∀ a ∈ m.alphabet, (transGet m.transitions q a).length = 1)
    (C : List String) : Reach m C ↔ ∃ q, StateReach m q ∧ C = [q] := by
  constructor
  · intro hC
    induction hC with
    | start => exact ⟨m.start, StateReach.start, rfl⟩
    | step C a _ ha _ ih =>
      obtain ⟨q, hq, rfl⟩ := ih
      obtain ⟨x, hx⟩ := List.length_eq_one.mp (hdet q (stateReach_mem hv hq) a ha)
      refine ⟨x, StateReach.step q a x hq ha (by rw [hx]; simp), nextStates_singleton hx⟩
  · rintro ⟨q, hq, rfl⟩
    induction hq with
    | start => exact Reach.start
    | step q a d hq ha hd ih =>
      obtain ⟨x, hx⟩ := List.length_eq_one.mp (hdet q (stateReach_mem hv hq) a ha)
      rw [hx, List.mem_singleton] at hd
      subst hd
      have hn := nextStates_singleton hx
      rw [← hn]
      exact Reach.step [q] a ih ha (by rw [hn]; simp)

theorem dfa_nameInjective {m : FA} (hv : m.Valid)
    (hdet : ∀ q ∈ m.states, ∀ a ∈ m.alphabet, (transGet m.transitions q a).length = 1) :
    NameInjective m := by
  intro C D hC hD h
  obtain ⟨q, _, rfl⟩ := (reach_iff_stateReach hv hdet C).mp hC
  obtain ⟨q', _, rfl⟩ := (reach_iff_stateReach hv hdet D).mp hD
  have : q = q' := h
  rw [this]

theorem dfa_not_sinkNeeded {m : FA} (hv : m.Valid)
    (hdet : ∀ q ∈ m.states, ∀ a ∈ m.alphabet, (transGet m.transitions q a).length = 1) :
    ¬ SinkNeeded m := by
  rintro ⟨D, hD, a, ha, he⟩
  obtain ⟨q, hq, rfl⟩ := (reach_iff_stateReach hv hdet D).mp hD
  obtain ⟨x, hx⟩ := List.length_eq_one.mp (hdet q (stateReach_mem hv hq) a ha)
  rw [nextStates_singleton hx] at he
  cases he

theorem symbolStep_det_of_not_sinkNeeded {nfa : FA} {C : List String}
    (hinj : NameInjective nfa) (hns : ¬ SinkNeeded nfa) (hC : Reach nfa C) (st : ConvState)
    (h : Det nfa st) (a : String) (ha : a ∈ nfa.alphabet) :
    Det nfa (symbolStep nfa C (FA.set_to_string C) st a) := by
  have h1 : nextStates nfa.transitions C a ≠ [] := fun he => hns ⟨C, hC, a, ha, he⟩
  intro D hD b hb
  rw [symbolStep_get, if_pos h1]
  by_cases h2 : FA.set_to_string C = FA.set_to_string D ∧ a = b
  · have hCD : C = D := hinj C D hC hD h2.1
    obtain ⟨_, rfl⟩ := h2
    subst hCD
    rw [if_pos ⟨rfl, rfl⟩, target_of_ne h1]
    rcases h C hC a hb with e | e <;> rw [e]
    · exact Or.inr (setInsert_nil _)
    · rw [target_of_ne h1]; exact Or.inr (setInsert_self _)
  · rw [if_neg h2]
    exact h D hD b hb

theorem loopIter_det_of_not_sinkNeeded {nfa : FA} (hinj : NameInjective nfa)
    (hns : ¬ SinkNeeded nfa) (n : Nat) : Det nfa (loopIter nfa n (initState nfa)) :=
  (loopIter_inv (fun s => Progress nfa s ∧ Det nfa s) nfa
    (fun dfa C q vis h => by
      obtain ⟨hp, hd⟩ := h
      have hCvis : C ∈ vis := by
        obtain ⟨⟨popped, hb⟩, _, _⟩ := hp
        have := hb.1
        simp only at this
        rw [this]; simp
      have hC : Reach nfa C := progress_visited_reach hp hCvis
      exact ⟨progress_step dfa C q vis hp,
        processSubset_inv (Det nfa) nfa C (fun _ hs => hs) (fun _ hs _ => hs)
          (fun s hs a ha => symbolStep_det_of_not_sinkNeeded hinj hns hC s hs a ha) _ hd⟩)
    n _ ⟨initState_progress nfa, initState_det nfa⟩).2


/-- C11 fails as stated: the model with the states `q0` and `q1`, in which `q1` is out of reach
of the start state `q0`, satisfies the DFA invariants 1-4, and the DFA that `NFA::to_dfa`
returns for it has neither the state `q1` nor the final state `q1` of the input. -/
theorem idempotence_counterexample :
    unreachDFA.Valid ∧ (DFA.validate_automaton unreachDFA).1 = Except.ok () ∧
    ∃ d, NFA.to_dfa 1 unreachDFA = some d ∧
      "q1" ∈ unreachDFA.states ∧ "q1" ∉ d.states ∧
      "q1" ∈ unreachDFA.final ∧ "q1" ∉ d.final ∧
      transGet unreachDFA.transitions "q1" "a" = ["q1"] ∧
      transGet d.transitions "q1" "a" = [] :=
  ⟨by decide, by decide, _, rfl, by decide, by decide, by decide, by decide, by decide,
    by decide⟩

/-- C11, amended: for every model that satisfies the DFA invariants 1-4, `NFA::to_dfa` returns
a DFA with the same alphabet and the same start state, whose states are the states of the input
that are reachable from the start state, under their own names, whose final states are the
reachable final states of the input, and whose destination sets are those of the input at the
reachable states and empty elsewhere. When every state of the input is reachable from the start
state, the returned DFA has the same alphabet, states, start state, final states and
transitions as the input. -/
theorem to_dfa_idempotent_on_reachable (m : FA) (hv : m.Valid)
    (hdet : ∀ q ∈ m.states, ∀ a ∈ m.alphabet, (transGet m.transitions q a).length = 1) :
    (∃ d, NFA.to_dfa (2 ^ m.states.length) m = some d) ∧
    ∀ fuel d, NFA.to_dfa fuel m = some d →
      d.alphabet = m.alphabet ∧ d.start = m.start ∧
      (∀ q, q ∈ d.states ↔ StateReach m q) ∧
      (∀ q, q ∈ d.final ↔ q ∈ m.final ∧ StateReach m q) ∧
      (∀ q a, StateReach m q → transGet d.transitions q a = transGet m.transitions q a) ∧
      (∀ q a, ¬ StateReach m q → transGet d.transitions q a = []) ∧
      ((∀ q ∈ m.states, StateReach m q) →
        (∀ q, q ∈ d.states ↔ q ∈ m.states) ∧ (∀ q, q ∈ d.final ↔ q ∈ m.final) ∧
        ∀ q a, transGet d.transitions q a = transGet m.transitions q a) := by
  refine ⟨to_dfa_of_valid hv, ?_⟩
  intro fuel d h
  obtain ⟨hq, rfl⟩ := to_dfa_eq_some h
  obtain ⟨⟨g1, g2, _, _, g5, g6, g7⟩, hp⟩ := loopIter_gen m fuel
  have hinj := dfa_nameInjective hv hdet
  have hns := dfa_not_sinkNeeded hv hdet
  have hd := loopIter_det_of_not_sinkNeeded hinj hns fuel
  have hriff := reach_iff_stateReach hv hdet
  have hcomp : ∀ q, StateReach m q → Complete m (loopIter m fuel (initState m)) [q] :=
    fun q hqr => reach_complete hp hq ((hriff [q]).mpr ⟨q, hqr, rfl⟩)
  have hstates : ∀ q, q ∈ (loopIter m fuel (initState m)).dfa.states ↔ StateReach m q := by
    intro q
    constructor
    · intro hmem
      rcases g2 q hmem with ⟨D, hD, hn⟩ | ⟨_, hs⟩
      · obtain ⟨q', hq', rfl⟩ := (hriff D).mp (progress_visited_reach hp hD)
        have : q' = q := hn
        rw [← this]; exact hq'
      · exact absurd hs hns
    · intro hqr
      exact (hcomp q hqr).1
  have hfinal : ∀ q, q ∈ (loopIter m fuel (initState m)).dfa.final ↔
      q ∈ m.final ∧ StateReach m q := by
    intro q
    constructor
    · intro hmem
      obtain ⟨D, hD, hn, s, hs, hsf⟩ := g1 q hmem
      obtain ⟨q', hq', rfl⟩ := (hriff D).mp hD
      have e1 : q' = q := hn
      have e2 : s = q' := List.mem_singleton.mp hs
      rw [← e1, ← e2]
      exact ⟨hsf, e2 ▸ hq'⟩
    · rintro ⟨hf, hqr⟩
      exact (hcomp q hqr).2.1 ⟨q, List.mem_singleton.mpr rfl, hf⟩
  have htr : ∀ q a, StateReach m q →
      transGet (loopIter m fuel (initState m)).dfa.transitions q a =
        transGet m.transitions q a := by
    intro q a hqr
    by_cases ha : a ∈ m.alphabet
    · obtain ⟨x, hx⟩ := List.length_eq_one.mp (hdet q (stateReach_mem hv hqr) a ha)
      have hne : nextStates m.transitions [q] a ≠ [] := by
        rw [nextStates_singleton hx]; simp
      have hcell := ((hcomp q hqr).2.2 a ha).1
      rcases hd [q] ((hriff [q]).mpr ⟨q, hqr, rfl⟩) a ha with e | e
      · exact absurd e hcell
      · rw [target_of_ne hne, nextStates_singleton hx] at e
        rw [hx]
        exact e
    · rw [transGet_eq_nil_of_valid hv (Or.inr ha)]
      exact transGet_eq_nil_of_entries
        (fun p hp' => ⟨(g5 p hp').1, fun e he => ((g5 p hp').2 e he).1⟩) (Or.inr ha)
  have hun : ∀ q a, ¬ StateReach m q →
      transGet (loopIter m fuel (initState m)).dfa.transitions q a = [] := by
    intro q a hnr
    exact transGet_eq_nil_of_entries
      (fun p hp' => ⟨(g5 p hp').1, fun e he => ((g5 p hp').2 e he).1⟩)
      (Or.inl (fun hmem => hnr ((hstates q).mp hmem)))
  refine ⟨g6, g7, hstates, hfinal, htr, hun, ?_⟩
  intro hall
  refine ⟨fun q => ⟨fun hmem => stateReach_mem hv ((hstates q).mp hmem),
      fun hmem => (hstates q).mpr (hall q hmem)⟩,
    fun q => ⟨fun hmem => ((hfinal q).mp hmem).1,
      fun hmem => (hfinal q).mpr ⟨hmem, hall q (hv.2.2.1 q hmem)⟩⟩, ?_⟩
  intro q a
  by_cases hqr : StateReach m q
  · exact htr q a hqr
  · rw [hun q a hqr, transGet_eq_nil_of_valid hv
      (Or.inl (fun hmem => hqr (hall q hmem)))]

/-- The model with the transitions `q0 a q1`, `q0 b q0`, `q1 a q1`, `q1 b q0`, all of whose
states are reachable, is converted into a DFA with the same states and the same destination
set of `(q1, b)`. -/
theorem to_dfa_idempotent_on_reachable_witness :
    ∃ d, NFA.to_dfa 2 totalDFA = some d ∧
      (∀ q, q ∈ d.states ↔ q ∈ totalDFA.states) ∧
      transGet d.transitions "q1" "b" = transGet totalDFA.transitions "q1" "b" :=
  ⟨_, rfl,
    (((to_dfa_idempotent_on_reachable totalDFA (by decide) (by decide)).2 2 _ rfl).2.2.2.2.2.2
      (by
        intro q hq
        have h1 : StateReach totalDFA "q0" := StateReach.start
        have h2 : StateReach totalDFA "q1" := StateReach.step "q0" "a" "q1" h1
          (by decide) (by decide)
        have hcases : q = "q0" ∨ q = "q1" := by simpa [totalDFA] using hq
        rcases hcases with rfl | rfl
        · exact h1
        · exact h2)).1,
    ((to_dfa_idempotent_on_reachable totalDFA (by decide) (by decide)).2 2 _ rfl).2.2.2.2.1
      "q1" "b" (StateReach.step "q0" "a" "q1" StateReach.start (by decide) (by decide))⟩

end Project1
